import Mathlib

/-!
Shallow embedding of the codebase-rag indexing and hybrid-retrieval engine.

The chunker module (`chunkFile`, `findBoundaries`, `chunkByBoundaries`,
`chunkByWindow`, `formatChunk`) is embedded as pure functions over the file
content (the file-system read that feeds `chunkFile` is external to the
engine, so content is passed in).  Regular-expression boundary patterns are
external inputs here: `chunkFile` is parameterized by the per-language
pattern table `bp : String → List (String → Bool)` (a predicate per regex),
mirroring `BOUNDARY_PATTERNS[language] || []`.  The path-stripping regex
replace `^.*\/repos\/[^/]+\//` is likewise abstracted as a function
`strip : String → String`.

The SQLite store of the `Indexer` class is embedded as an explicit record
`DB` of table rows; each method becomes a function from `DB` (and its
arguments) to its result and/or an updated `DB`.  SQL `UNIQUE` violations
inside the `indexFile` transaction are modelled by an `Option DB` result,
`none` meaning the transaction rolled back.  JavaScript numbers are
embedded as exact rationals `ℚ`; `Math.sqrt` is an external platform
function and is passed as a parameter `sqrt : ℚ → ℚ`.  The FTS5 virtual
table's internal matching and bm25 ranking are external capabilities per
the engine's design, passed as `fts : String → Nat → List RawSearchRow`
(query text and LIMIT to the ranked rows of the SQL statement in
`keywordSearch`).  The float32 blob encode/decode round trip of
`storeVectors` / `bufferToFloat32` is modelled as the identity, so a
stored embedding is kept as the list of numbers itself.
-/

namespace CodebaseRag

/-- `MAX_CHUNK_LINES` from the chunker module. -/
def MAX_CHUNK_LINES : Nat := 60

/-- `OVERLAP_LINES` from the chunker module. -/
def OVERLAP_LINES : Nat := 8

/-- The `Chunk` interface of the chunker module.  The `type` field is named
`ctype` here. -/
structure Chunk where
  filePath : String
  startLine : Nat
  endLine : Nat
  content : String
  ctype : String
  language : String
  deriving Repr, DecidableEq

/-- The `LANG_MAP` extension table of the chunker module. -/
def LANG_MAP (ext : String) : Option String :=
  match ext with
  | ".ts" => some "typescript"
  | ".tsx" => some "typescript"
  | ".js" => some "javascript"
  | ".jsx" => some "javascript"
  | ".mjs" => some "javascript"
  | ".cjs" => some "javascript"
  | ".py" => some "python"
  | ".pyi" => some "python"
  | ".rs" => some "rust"
  | ".go" => some "go"
  | ".java" => some "java"
  | ".kt" => some "kotlin"
  | ".scala" => some "scala"
  | ".c" => some "c"
  | ".cpp" => some "cpp"
  | ".h" => some "c"
  | ".hpp" => some "cpp"
  | ".rb" => some "ruby"
  | ".php" => some "php"
  | ".swift" => some "swift"
  | ".cs" => some "csharp"
  | ".sol" => some "solidity"
  | ".md" => some "markdown"
  | ".mdx" => some "markdown"
  | ".json" => some "json"
  | ".yaml" => some "yaml"
  | ".yml" => some "yaml"
  | ".toml" => some "toml"
  | ".sh" => some "bash"
  | ".bash" => some "bash"
  | ".sql" => some "sql"
  | ".graphql" => some "graphql"
  | ".gql" => some "graphql"
  | ".proto" => some "protobuf"
  | ".tf" => some "terraform"
  | _ => none

/-- Node's `path.basename`: the last `/`-separated component. -/
def basename (p : String) : String :=
  (p.splitOn "/").getLastD ""

/-- Node's `path.extname`: the final extension of the basename, including
the dot; empty when there is no dot or the only dot leads a dotfile. -/
def extname (p : String) : String :=
  let b := basename p
  let parts := b.splitOn "."
  if parts.length ≤ 1 then ""
  else if b.startsWith "." ∧ parts.length = 2 then ""
  else "." ++ parts.getLastD ""

/-- JavaScript `String.prototype.trim`: strip whitespace from both ends
(structural over the character list, so it evaluates in the kernel). -/
def jsTrim (s : String) : String :=
  ⟨((s.data.dropWhile Char.isWhitespace).reverse.dropWhile Char.isWhitespace).reverse⟩

/-- JavaScript `String.prototype.split` with a single-character separator,
over the character list: `n` separators yield `n + 1` groups. -/
def splitOnChar (sep : Char) : List Char → List (List Char)
  | [] => [[]]
  | ch :: rest =>
    let r := splitOnChar sep rest
    if ch = sep then [] :: r
    else
      match r with
      | g :: gs => (ch :: g) :: gs
      | [] => [[ch]]

/-- `content.split("\n")` of the chunker module. -/
def jsSplitNewline (s : String) : List String :=
  (splitOnChar '\n' s.data).map (fun g => ⟨g⟩)

/-- `formatChunk` of the chunker module: prepend a header naming the
stripped file path and the 1-based line range, then the raw lines. -/
def formatChunk (strip : String → String) (filePath : String) (lines : List String)
    (startLine : Nat) (language : String) : String :=
  let relPath := strip filePath
  let header := "// File: " ++ relPath ++ " (lines " ++ toString startLine ++ "-"
    ++ toString (startLine + lines.length - 1) ++ ")"
  let _ := language
  header ++ "\n" ++ String.intercalate "\n" lines

/-- The scanning loop of `findBoundaries`: walk lines from index 1,
skipping lines indented more than 2 columns, and record a boundary at each
line matched by some pattern that lies at least 5 lines past the last
recorded boundary. -/
def boundaryLoop (pats : List (String → Bool)) (lines : List String) (i : Nat)
    (bs : List Nat) : List Nat :=
  if h : i < lines.length then
    let line := lines.get ⟨i, h⟩
    let trimmed := line.trimLeft
    let indent := line.length - trimmed.length
    let bs' :=
      if 2 < indent then bs
      else if pats.any (fun p => p trimmed) then
        (if 5 ≤ i - bs.getLastD 0 then bs ++ [i] else bs)
      else bs
    boundaryLoop pats lines (i + 1) bs'
  else bs
termination_by lines.length - i

/-- `findBoundaries` of the chunker module, with the regex table as the
parameter `bp`.  Returns `[]` when the language has no patterns, else the
accepted 0-based boundary indices starting with 0. -/
def findBoundaries (bp : String → List (String → Bool)) (lines : List String)
    (language : String) : List Nat :=
  let patterns := bp language
  if patterns.length = 0 then [] else boundaryLoop patterns lines 1 [0]

/-- The while loop of `chunkByWindow`: emit a window of at most
`MAX_CHUNK_LINES` lines starting at 0-based `pos`, then advance by
`MAX_CHUNK_LINES - OVERLAP_LINES`, stopping once a window reached the end
of the lines. -/
def windowLoop (strip : String → String) (filePath : String) (lines : List String)
    (ctype language : String) (lineOffset : Nat) (pos : Nat) : List Chunk :=
  if _h : pos < lines.length then
    let e := min (pos + MAX_CHUNK_LINES) lines.length
    let chunkLines := (lines.drop pos).take (e - pos)
    { filePath := filePath, startLine := pos + lineOffset, endLine := e + lineOffset - 1,
      content := formatChunk strip filePath chunkLines (pos + lineOffset) language,
      ctype := ctype, language := language } ::
    (if lines.length ≤ e then []
     else windowLoop strip filePath lines ctype language lineOffset
        (pos + (MAX_CHUNK_LINES - OVERLAP_LINES)))
  else []
termination_by lines.length - pos
decreasing_by simp only [MAX_CHUNK_LINES, OVERLAP_LINES]; omega

/-- `chunkByWindow` of the chunker module: fixed-size sliding windows over
`lines`, reported in 1-based absolute coordinates via `lineOffset`. -/
def chunkByWindow (strip : String → String) (filePath : String) (lines : List String)
    (ctype language : String) (lineOffset : Nat) : List Chunk :=
  windowLoop strip filePath lines ctype language lineOffset 0

/-- The indexed loop of `chunkByBoundaries`, as recursion over the
remaining boundary list: each boundary opens a segment reaching to the
next boundary (or the end of the file); oversized segments
(`> MAX_CHUNK_LINES * 1.5` lines) are sub-chunked by `chunkByWindow` at
their absolute offset. -/
def boundarySegments (strip : String → String) (filePath : String) (lines : List String)
    (ctype language : String) (bs : List Nat) : List Chunk :=
  match bs with
  | [] => []
  | start :: rest =>
    let e :=
      match rest with
      | next :: _ => next
      | [] => lines.length
    let chunkLines := (lines.drop start).take (e - start)
    (if 3 * MAX_CHUNK_LINES < 2 * chunkLines.length then
      windowLoop strip filePath chunkLines ctype language (start + 1) 0
    else
      [{ filePath := filePath, startLine := start + 1, endLine := e,
         content := formatChunk strip filePath chunkLines (start + 1) language,
         ctype := ctype, language := language }])
    ++ boundarySegments strip filePath lines ctype language rest

/-- `chunkByBoundaries` of the chunker module. -/
def chunkByBoundaries (strip : String → String) (filePath : String) (lines : List String)
    (boundaries : List Nat) (ctype language : String) : List Chunk :=
  boundarySegments strip filePath lines ctype language boundaries

/-- The language resolution of `chunkFile`:
`LANG_MAP[ext] || basename(filePath).toLowerCase()` (every `LANG_MAP`
value is non-empty, so `||` is exactly the missing-key fallback). -/
def resolveLanguage (filePath : String) : String :=
  let ext := (extname filePath).toLower
  match LANG_MAP ext with
  | some l => l
  | none => (basename filePath).toLower

/-- `chunkFile` of the chunker module, over the file's content (the
file-system read and its error path are outside the engine).  `bp` is the
`BOUNDARY_PATTERNS` table, `strip` the path-stripping regex replace. -/
def chunkFile (bp : String → List (String → Bool)) (strip : String → String)
    (filePath content : String) : List Chunk :=
  if jsTrim content = "" then []
  else
    let language := resolveLanguage filePath
    let ctype := if language = "markdown" then "doc" else "code"
    let lines := jsSplitNewline content
    if lines.length ≤ MAX_CHUNK_LINES then
      [{ filePath := filePath, startLine := 1, endLine := lines.length,
         content := formatChunk strip filePath lines 1 language,
         ctype := ctype, language := language }]
    else
      let boundaries := findBoundaries bp lines language
      if 1 < boundaries.length then
        chunkByBoundaries strip filePath lines boundaries ctype language
      else
        chunkByWindow strip filePath lines ctype language 1

/-- A row of the `documents` table.  `indexed_at` holds the `datetime('now')`
value, embedded as an abstract clock reading. -/
structure DocRow where
  id : Nat
  repo : String
  file_path : String
  file_hash : String
  language : String
  indexed_at : Nat
  deriving Repr, DecidableEq

/-- A row of the `chunks` table (`rowid` coincides with `id`, the INTEGER
PRIMARY KEY). -/
structure ChunkRow where
  id : Nat
  doc_id : Nat
  start_line : Nat
  end_line : Nat
  content : String
  chunk_type : String
  deriving Repr, DecidableEq

/-- A row of the `chunks_fts` virtual table: the externally-contentful
columns the engine writes and deletes by rowid. -/
structure FtsRow where
  rowid : Nat
  content : String
  file_path : String
  deriving Repr, DecidableEq

/-- A row of the `vectors` table; the float32 blob is kept decoded. -/
structure VecRow where
  chunk_id : Nat
  embedding : List ℚ
  deriving Repr, DecidableEq

/-- The SQLite database owned by the `Indexer` class: its four tables plus
the AUTOINCREMENT counters of `documents` and `chunks`. -/
structure DB where
  documents : List DocRow
  chunks : List ChunkRow
  chunks_fts : List FtsRow
  vectors : List VecRow
  nextDocId : Nat
  nextChunkId : Nat
  deriving Repr, DecidableEq

/-- A freshly created index database (AUTOINCREMENT counters start at 1). -/
def emptyDB : DB := ⟨[], [], [], [], 1, 1⟩

/-- The `SELECT ... FROM documents WHERE repo = ? AND file_path = ?` lookup
used by `hasChanged`, `indexFile` and `storeVectors`. -/
def findDoc (db : DB) (repo p : String) : Option DocRow :=
  db.documents.find? (fun d => decide (d.repo = repo ∧ d.file_path = p))

/-- `Indexer.hasChanged`: true when no document row exists for
`(repo, filePath)` or its stored hash differs.  A pure read: the database
value is consumed, never rebuilt. -/
def hasChanged (db : DB) (repo filePath hash : String) : Bool :=
  match findDoc db repo filePath with
  | none => true
  | some row => decide (row.file_hash ≠ hash)

/-- The language stored by `indexFile`'s document upsert:
`chunks[0]?.language || "unknown"` (the JavaScript `||` also replaces an
empty language string). -/
def docLanguage (chunks : List Chunk) : String :=
  match chunks with
  | [] => "unknown"
  | c :: _ => if c.language = "" then "unknown" else c.language

/-- The `INSERT ... ON CONFLICT(repo, file_path) DO UPDATE` statement of
`indexFile`: update hash, language and timestamp in place on conflict,
else append a fresh row under the next document id. -/
def upsertDocument (db : DB) (repo p hash lang : String) (now : Nat) : DB :=
  match findDoc db repo p with
  | some _ =>
    { db with
      documents := db.documents.map (fun d =>
        if d.repo = repo ∧ d.file_path = p then
          { d with file_hash := hash, language := lang, indexed_at := now }
        else d) }
  | none =>
    { db with
      documents := db.documents
        ++ [{ id := db.nextDocId, repo := repo, file_path := p, file_hash := hash,
              language := lang, indexed_at := now }],
      nextDocId := db.nextDocId + 1 }

/-- The insertion loop of `indexFile`: for each chunk insert a `chunks` row
under a fresh id and mirror it into `chunks_fts` under the stripped path.
The `UNIQUE(doc_id, start_line)` constraint makes a duplicate start line
within the document fail the transaction, modelled by `none`. -/
def insertChunkRows (strip : String → String) (docId : Nat) (chunks : List Chunk)
    (db : DB) : Option DB :=
  match chunks with
  | [] => some db
  | c :: rest =>
    if db.chunks.any (fun r => decide (r.doc_id = docId ∧ r.start_line = c.startLine)) then
      none
    else
      let cid := db.nextChunkId
      let relPath := strip c.filePath
      insertChunkRows strip docId rest
        { db with
          chunks := db.chunks ++ [⟨cid, docId, c.startLine, c.endLine, c.content, c.ctype⟩],
          chunks_fts := db.chunks_fts ++ [⟨cid, c.content, relPath⟩],
          nextChunkId := cid + 1 }

/-- `Indexer.indexFile`: inside one transaction, upsert the document row,
delete the document's vectors, FTS postings and chunks, then insert the
new chunk set.  `none` models the transaction rolling back (a constraint
violation, or the impossible missing-document read). -/
def indexFile (strip : String → String) (db : DB) (repo filePath hash : String)
    (chunks : List Chunk) (now : Nat) : Option DB :=
  let db1 := upsertDocument db repo filePath hash (docLanguage chunks) now
  match findDoc db1 repo filePath with
  | none => none
  | some doc =>
    let oldIds := (db1.chunks.filter (fun c => decide (c.doc_id = doc.id))).map ChunkRow.id
    let db2 : DB :=
      { db1 with
        vectors := db1.vectors.filter (fun v => decide (v.chunk_id ∉ oldIds)),
        chunks_fts := db1.chunks_fts.filter (fun f => decide (f.rowid ∉ oldIds)),
        chunks := db1.chunks.filter (fun c => decide (¬ c.doc_id = doc.id)) }
    insertChunkRows strip doc.id chunks db2

/-- `INSERT OR REPLACE INTO vectors`: drop any row for the chunk id, then
insert the new one. -/
def upsertVector (vs : List VecRow) (cid : Nat) (v : List ℚ) : List VecRow :=
  (vs.filter (fun w => decide (¬ w.chunk_id = cid))) ++ [{ chunk_id := cid, embedding := v }]

/-- The `SELECT id FROM chunks WHERE doc_id = ? ORDER BY start_line ASC`
read of `storeVectors` (stable sort; start lines are unique per document
by the schema, so the order is the ascending start-line order). -/
def docChunksSorted (db : DB) (docId : Nat) : List ChunkRow :=
  (db.chunks.filter (fun c => decide (c.doc_id = docId))).mergeSort
    (fun a b => decide (a.start_line ≤ b.start_line))

/-- `Indexer.storeVectors`: no-op without a document row; else pair the
document's chunks, ordered by ascending start line, positionally with the
given vectors (`zip` realizes the `Math.min` loop bound) and upsert each
pair. -/
def storeVectors (db : DB) (repo filePath : String) (vectors : List (List ℚ)) : DB :=
  match findDoc db repo filePath with
  | none => db
  | some doc =>
    { db with
      vectors := ((docChunksSorted db doc.id).zip vectors).foldl
        (fun vs cv => upsertVector vs cv.1.id cv.2) db.vectors }

/-- The retrieval-method tag of a `SearchResult`. -/
inductive Method where
  | keyword
  | semantic
  | hybrid
  deriving Repr, DecidableEq

/-- The `SearchResult` interface of the indexer module. -/
structure SearchResult where
  filePath : String
  content : String
  startLine : Nat
  endLine : Nat
  language : String
  repo : String
  score : ℚ
  method : Method
  deriving Repr, DecidableEq

/-- The `RawSearchRow` shape: a row of the ranked FTS join in
`keywordSearch`, with `score` the bm25 value. -/
structure RawSearchRow where
  chunk_id : Nat
  content : String
  start_line : Nat
  end_line : Nat
  chunk_type : String
  file_path : String
  repo : String
  language : String
  score : ℚ
  deriving Repr, DecidableEq

/-- The score normalization of `keywordSearch`:
`Math.abs(r.score) / (1 + Math.abs(r.score))`. -/
def normalizeScore (s : ℚ) : ℚ := |s| / (1 + |s|)

/-- The FTS term list built by `keywordSearch`: whitespace-split the
trimmed query, drop empty terms, quote each term with inner quotes removed
and a `*` suffix for per-term matching. -/
def ftsTermList (query : String) : List String :=
  ((query.trim.split (fun ch => ch.isWhitespace)).filter (fun t => 0 < t.length)).map
    (fun t => "\"" ++ (t.replace "\"" "") ++ "\"*")

/-- The FTS query string of `keywordSearch`: the terms joined by " AND ". -/
def buildFtsTerms (query : String) : String :=
  String.intercalate " AND " (ftsTermList query)

/-- `Indexer.keywordSearch`, with the FTS5 capability abstracted as `fts`
(query string and LIMIT to the rows the `bm25`-ordered SQL statement
returns).  An empty term string returns `[]` before touching the store;
each row is projected to a `SearchResult` with the path stripped, the
score normalized, and the `keyword` tag. -/
def keywordSearch (fts : String → Nat → List RawSearchRow) (strip : String → String)
    (query : String) (limit : Nat) : List SearchResult :=
  let terms := buildFtsTerms query
  if terms = "" then []
  else
    (fts terms limit).map (fun r =>
      { filePath := strip r.file_path, content := r.content, startLine := r.start_line,
        endLine := r.end_line, language := r.language, repo := r.repo,
        score := normalizeScore r.score, method := Method.keyword })

/-- The accumulation loop of `cosineSimilarity`, split into its three sums:
`sumProd a b` is the running `dot` (`sumProd a a` the running `normA`). -/
def sumProd : List ℚ → List ℚ → ℚ
  | a :: as, b :: bs => a * b + sumProd as bs
  | _, _ => 0

/-- `cosineSimilarity` of the indexer module, with `Math.sqrt` passed in as
`sqrt`: length mismatch gives 0, a zero denominator gives 0, else the
normalized dot product. -/
def cosineSimilarity (sqrt : ℚ → ℚ) (a b : List ℚ) : ℚ :=
  if a.length ≠ b.length then 0
  else
    let dot := sumProd a b
    let normA := sumProd a a
    let normB := sumProd b b
    let denom := sqrt normA * sqrt normB
    if denom = 0 then 0 else dot / denom

/-- The `vectors JOIN chunks JOIN documents` scan of `vectorSearch`. -/
def vectorJoin (db : DB) : List (VecRow × ChunkRow × DocRow) :=
  db.vectors.filterMap (fun v =>
    (db.chunks.find? (fun c => decide (c.id = v.chunk_id))).bind (fun c =>
      (db.documents.find? (fun d => decide (d.id = c.doc_id))).map (fun d => (v, c, d))))

/-- `Indexer.vectorSearch`: score every stored vector against the query by
cosine similarity, sort descending (the stable JavaScript sort with
comparator `b.score - a.score`), truncate to `limit`, and project to
`SearchResult`s tagged `semantic`. -/
def vectorSearch (db : DB) (sqrt : ℚ → ℚ) (strip : String → String)
    (queryEmbedding : List ℚ) (limit : Nat) : List SearchResult :=
  let scored := (vectorJoin db).map (fun r =>
    (r.2.1, r.2.2, cosineSimilarity sqrt queryEmbedding r.1.embedding))
  let top := (scored.mergeSort (fun a b => decide (b.2.2 ≤ a.2.2))).take limit
  top.map (fun r =>
    { filePath := strip r.2.1.file_path, content := r.1.content, startLine := r.1.start_line,
      endLine := r.1.end_line, language := r.2.1.language, repo := r.2.1.repo,
      score := r.2.2, method := Method.semantic })

/-- The deduplication key of `hybridSearch`:
the template string `filePath:startLine`. -/
def keyOf (r : SearchResult) : String :=
  r.filePath ++ ":" ++ toString r.startLine

/-- One entry of the `scores` map of `hybridSearch`. -/
structure ScoreEntry where
  score : ℚ
  result : SearchResult
  deriving Repr, DecidableEq

/-- The insertion-ordered `Map` of `hybridSearch`, as an association list:
`set` replaces in place when the key is present, else appends. -/
def mapSet (m : List (String × ScoreEntry)) (k : String) (v : ScoreEntry) :
    List (String × ScoreEntry) :=
  if m.any (fun e => decide (e.1 = k)) then
    m.map (fun e => if e.1 = k then (k, v) else e)
  else m ++ [(k, v)]

/-- `Map.get` of the `scores` map. -/
def mapLookup (m : List (String × ScoreEntry)) (k : String) : Option ScoreEntry :=
  (m.find? (fun e => decide (e.1 = k))).map (fun e => e.2)

/-- The RRF constant `k = 60` of `hybridSearch`. -/
def rrfK : ℚ := 60

/-- The first loop of `hybridSearch`: keyword result `i` (0-based) sets its
key to score `1 / (k + i + 1)` with the result retagged `hybrid`. -/
def keywordPass (i : Nat) (rs : List SearchResult) (m : List (String × ScoreEntry)) :
    List (String × ScoreEntry) :=
  match rs with
  | [] => m
  | r :: rest =>
    keywordPass (i + 1) rest
      (mapSet m (keyOf r) ⟨1 / (rrfK + i + 1), { r with method := Method.hybrid }⟩)

/-- The body of the second loop of `hybridSearch` for vector result `r` at
0-based index `i`: add `1 / (k + i + 1)` to an existing entry for its key
(retagging it `hybrid`, by in-place mutation of the map entry), else
insert a fresh entry. -/
def vectorStep (i : Nat) (r : SearchResult) (m : List (String × ScoreEntry)) :
    List (String × ScoreEntry) :=
  let s : ℚ := 1 / (rrfK + i + 1)
  match mapLookup m (keyOf r) with
  | some e =>
    m.map (fun p =>
      if p.1 = keyOf r then
        (p.1, (⟨e.score + s, { e.result with method := Method.hybrid }⟩ : ScoreEntry))
      else p)
  | none => m ++ [(keyOf r, ⟨s, { r with method := Method.hybrid }⟩)]

/-- The second loop of `hybridSearch`: `vectorStep` over the vector
results in order. -/
def vectorPass (i : Nat) (rs : List SearchResult) (m : List (String × ScoreEntry)) :
    List (String × ScoreEntry) :=
  match rs with
  | [] => m
  | r :: rest => vectorPass (i + 1) rest (vectorStep i r m)

/-- The fused score map of `hybridSearch` for a keyword list and a vector
list: both passes over the initially empty `Map`. -/
def rrfScores (kw vr : List SearchResult) : List (String × ScoreEntry) :=
  vectorPass 0 vr (keywordPass 0 kw [])

/-- The fusion tail of `hybridSearch`: the map's values in insertion order,
stably sorted by fused score descending, truncated to `limit`, each result
carrying its fused score. -/
def rrfFuse (kw vr : List SearchResult) (limit : Nat) : List SearchResult :=
  let entries := (rrfScores kw vr).map (fun e => e.2)
  ((entries.mergeSort (fun a b => decide (b.score ≤ a.score))).take limit).map
    (fun e => { e.result with score := e.score })

/-- `Indexer.hybridSearch`: keyword search for `2 × limit` candidates; with
no query embedding return them truncated to `limit`, else fuse them with
`2 × limit` vector candidates by Reciprocal Rank Fusion. -/
def hybridSearch (db : DB) (sqrt : ℚ → ℚ) (fts : String → Nat → List RawSearchRow)
    (strip : String → String) (query : String) (queryEmbedding : Option (List ℚ))
    (limit : Nat) : List SearchResult :=
  let keywordResults := keywordSearch fts strip query (limit * 2)
  match queryEmbedding with
  | none => keywordResults.take limit
  | some emb => rrfFuse keywordResults (vectorSearch db sqrt strip emb (limit * 2)) limit

/-- Store invariants maintained by the schema: one document row per
`(repo, file_path)` key (its UNIQUE constraint), chunk primary keys
pairwise distinct and below the AUTOINCREMENT counter. -/
def WellFormed (db : DB) : Prop :=
  (db.documents.map (fun d => (d.repo, d.file_path))).Nodup ∧
  (db.chunks.map ChunkRow.id).Nodup ∧
  (∀ c ∈ db.chunks, c.id < db.nextChunkId)

/-- The chunk rows `indexFile`'s insertion loop produces for a document,
with ids counting up from `base`. -/
def newChunkRows (docId base : Nat) : List Chunk → List ChunkRow
  | [] => []
  | c :: rest => ⟨base, docId, c.startLine, c.endLine, c.content, c.ctype⟩
      :: newChunkRows docId (base + 1) rest

/-- The FTS rows `indexFile`'s insertion loop produces, with rowids
counting up from `base`. -/
def newFtsRows (strip : String → String) (base : Nat) : List Chunk → List FtsRow
  | [] => []
  | c :: rest => ⟨base, c.content, strip c.filePath⟩ :: newFtsRows strip (base + 1) rest

/-- The entries the keyword pass of `hybridSearch` appends for a fresh key
block, ranks continuing from 0-based index `i`. -/
def kwEntries (i : Nat) : List SearchResult → List (String × ScoreEntry)
  | [] => []
  | r :: rest =>
    (keyOf r, (⟨1 / (rrfK + i + 1), { r with method := Method.hybrid }⟩ : ScoreEntry))
      :: kwEntries (i + 1) rest

/-- Lookup of a stored vector row by chunk id. -/
def lookupVec (vs : List VecRow) (cid : Nat) : Option VecRow :=
  vs.find? (fun v => decide (v.chunk_id = cid))

/-- A small populated store used to instantiate theorems on concrete data. -/
def sampleDB : DB :=
  { documents := [⟨1, "rep", "a.ts", "h1", "typescript", 0⟩],
    chunks := [⟨1, 1, 1, 2, "alpha", "code"⟩, ⟨2, 1, 3, 5, "beta", "code"⟩],
    chunks_fts := [⟨1, "alpha", "a.ts"⟩, ⟨2, "beta", "a.ts"⟩],
    vectors := [⟨1, [1, 2]⟩],
    nextDocId := 2, nextChunkId := 3 }

/-- Claim C9: `hasChanged(collection, path, hash)` is true exactly when no
document row exists for the pair or the stored hash differs.  It is a pure
read: its type consumes the store and returns only the Boolean, so no
stored state can change. -/
theorem C9_hasChanged_iff (db : DB) (repo p hash : String) :
    hasChanged db repo p hash = true ↔
      findDoc db repo p = none ∨
        ∃ row, findDoc db repo p = some row ∧ row.file_hash ≠ hash := by
  rcases h : findDoc db repo p with _ | row <;> simp [hasChanged, h]

/-- Claim C4: a file whose content is non-empty after trimming and splits
into at most `MAX_CHUNK_LINES = 60` lines is chunked into exactly one
chunk from line 1 to the line count. -/
theorem C4_chunkFile_small (bp : String → List (String → Bool)) (strip : String → String)
    (filePath content : String) (hne : jsTrim content ≠ "")
    (hlen : (jsSplitNewline content).length ≤ 60) :
    ∃ c, chunkFile bp strip filePath content = [c] ∧ c.startLine = 1 ∧
      c.endLine = (jsSplitNewline content).length := by
  refine ⟨⟨filePath, 1, (jsSplitNewline content).length,
    formatChunk strip filePath (jsSplitNewline content) 1 (resolveLanguage filePath),
    (if resolveLanguage filePath = "markdown" then "doc" else "code"),
    resolveLanguage filePath⟩, ?_, rfl, rfl⟩
  unfold chunkFile
  rw [if_neg hne]
  simp only [MAX_CHUNK_LINES]
  rw [if_pos hlen]

/-- Witness for C4 on a concrete one-line file. -/
theorem C4_chunkFile_small_witness :
    jsTrim "hello" ≠ "" ∧ (jsSplitNewline "hello").length ≤ 60 ∧
    ∃ c, chunkFile (fun _ => []) (fun s => s) "a.txt" "hello" = [c] ∧ c.startLine = 1 ∧
      c.endLine = (jsSplitNewline "hello").length :=
  ⟨by decide, by decide,
    C4_chunkFile_small (fun _ => []) (fun s => s) "a.txt" "hello" (by decide) (by decide)⟩

theorem cosineSimilarity_length_ne (sqrt : ℚ → ℚ) (a b : List ℚ)
    (h : a.length ≠ b.length) : cosineSimilarity sqrt a b = 0 := by
  unfold cosineSimilarity
  rw [if_pos h]

theorem cosineSimilarity_zero_norm (sqrt : ℚ → ℚ) (a b : List ℚ) (hsq : sqrt 0 = 0)
    (h : sumProd a a = 0 ∨ sumProd b b = 0) : cosineSimilarity sqrt a b = 0 := by
  unfold cosineSimilarity
  by_cases hl : a.length ≠ b.length
  · rw [if_pos hl]
  · rw [if_neg hl]
    rcases h with h | h
    · rw [if_pos (by rw [h, hsq, zero_mul])]
    · rw [if_pos (by rw [h, hsq, mul_zero])]

theorem sumProd_self_zero (q : List ℚ) (h : ∀ x ∈ q, x = 0) : sumProd q q = 0 := by
  induction q with
  | nil => rfl
  | cons x xs ih =>
    have hx : x = 0 := h x (List.mem_cons_self x xs)
    have : sumProd xs xs = 0 := ih (fun y hy => h y (List.mem_cons_of_mem x hy))
    simp [sumProd, hx, this]

/-- Claim C6: `cosineSimilarity` is total and never divides by zero —
mismatched lengths give 0, a zero norm on either side gives 0 (with
`Math.sqrt 0 = 0`), and `vectorSearch` with an all-zero query vector
returns score 0 for every result.  Totality itself is carried by the
types: both functions are plain functions into `ℚ` / result lists. -/
theorem C6_cosine_never_divides_by_zero :
    (∀ (sqrt : ℚ → ℚ) (a b : List ℚ), a.length ≠ b.length →
      cosineSimilarity sqrt a b = 0) ∧
    (∀ (sqrt : ℚ → ℚ) (a b : List ℚ), sqrt 0 = 0 →
      sumProd a a = 0 ∨ sumProd b b = 0 → cosineSimilarity sqrt a b = 0) ∧
    (∀ (db : DB) (sqrt : ℚ → ℚ) (strip : String → String) (q : List ℚ) (limit : Nat),
      sqrt 0 = 0 → (∀ x ∈ q, x = 0) →
      ∀ r ∈ vectorSearch db sqrt strip q limit, r.score = 0) := by
  refine ⟨cosineSimilarity_length_ne, cosineSimilarity_zero_norm, ?_⟩
  intro db sqrt strip q limit hsq hq r hr
  unfold vectorSearch at hr
  rcases List.mem_map.mp hr with ⟨r0, hr0, rfl⟩
  have hmem : r0 ∈ (vectorJoin db).map (fun r =>
      (r.2.1, r.2.2, cosineSimilarity sqrt q r.1.embedding)) := by
    have := List.mem_of_mem_take hr0
    exact (List.mergeSort_perm _ _).mem_iff.mp this
  rcases List.mem_map.mp hmem with ⟨j, _, rfl⟩
  show cosineSimilarity sqrt q j.1.embedding = 0
  by_cases hl : q.length ≠ j.1.embedding.length
  · exact cosineSimilarity_length_ne sqrt _ _ hl
  · exact cosineSimilarity_zero_norm sqrt _ _ hsq (Or.inl (sumProd_self_zero q hq))

/-- Witness for C6: a mismatched pair, a zero-norm pair, and the sample
store queried with the zero vector. -/
theorem C6_cosine_never_divides_by_zero_witness :
    cosineSimilarity (fun x => if x ≤ 0 then 0 else 1) [1] [1, 2] = 0 ∧
    cosineSimilarity (fun x => if x ≤ 0 then 0 else 1) [0, 0] [3, 4] = 0 ∧
    ∀ r ∈ vectorSearch sampleDB (fun x => if x ≤ 0 then 0 else 1) (fun s => s) [0, 0] 10,
      r.score = 0 :=
  ⟨C6_cosine_never_divides_by_zero.1 _ [1] [1, 2] (by decide),
   C6_cosine_never_divides_by_zero.2.1 _ [0, 0] [3, 4] (by decide) (Or.inl (by simp [sumProd])),
   C6_cosine_never_divides_by_zero.2.2 sampleDB _ (fun s => s) [0, 0] 10 (by decide)
     (by decide)⟩

theorem normalizeScore_nonneg_lt_one (s : ℚ) :
    0 ≤ normalizeScore s ∧ normalizeScore s < 1 := by
  unfold normalizeScore
  have h0 : (0 : ℚ) ≤ |s| := abs_nonneg s
  have h1 : (0 : ℚ) < 1 + |s| := by linarith
  constructor
  · exact div_nonneg h0 (le_of_lt h1)
  · rw [div_lt_one h1]
    linarith

theorem normalizeScore_strictMono (s t : ℚ) (h : |s| < |t|) :
    normalizeScore s < normalizeScore t := by
  unfold normalizeScore
  have hs : (0 : ℚ) ≤ |s| := abs_nonneg s
  have ht : (0 : ℚ) ≤ |t| := abs_nonneg t
  have h1 : (0 : ℚ) < 1 + |s| := by linarith
  have h2 : (0 : ℚ) < 1 + |t| := by linarith
  rw [div_lt_div_iff₀ h1 h2]
  nlinarith

theorem normalizeScore_mono (s t : ℚ) (h : |s| ≤ |t|) :
    normalizeScore s ≤ normalizeScore t := by
  rcases eq_or_lt_of_le h with h | h
  · unfold normalizeScore
    rw [h]
  · exact le_of_lt (normalizeScore_strictMono s t h)

/-- Claim C7: the keyword-score normalization `|s| / (1 + |s|)` maps into
`[0, 1)`, is strictly monotone in `|s|`, is order-reversing on non-positive
raw scores, and therefore `keywordSearch` output (rows returned best-first,
i.e. raw bm25 score ascending and non-positive) stays ordered best-first
after normalization. -/
theorem C7_normalization_order :
    (∀ s : ℚ, 0 ≤ normalizeScore s ∧ normalizeScore s < 1) ∧
    (∀ s t : ℚ, |s| < |t| → normalizeScore s < normalizeScore t) ∧
    (∀ s t : ℚ, s ≤ 0 → t ≤ 0 → s < t → normalizeScore t < normalizeScore s) ∧
    (∀ (fts : String → Nat → List RawSearchRow) (strip : String → String)
       (query : String) (limit : Nat),
      (fts (buildFtsTerms query) limit).Pairwise (fun a b => a.score ≤ b.score) →
      (∀ r ∈ fts (buildFtsTerms query) limit, r.score ≤ 0) →
      (keywordSearch fts strip query limit).Pairwise (fun a b => b.score ≤ a.score)) := by
  refine ⟨normalizeScore_nonneg_lt_one, normalizeScore_strictMono, ?_, ?_⟩
  · intro s t hs ht hlt
    apply normalizeScore_strictMono
    rw [abs_of_nonpos hs, abs_of_nonpos ht]
    linarith
  · intro fts strip query limit hsort hneg
    unfold keywordSearch
    by_cases hterm : buildFtsTerms query = ""
    · rw [if_pos hterm]
      exact List.Pairwise.nil
    · rw [if_neg hterm]
      rw [List.pairwise_map]
      refine hsort.imp_of_mem ?_
      intro a b ha hb hab
      show normalizeScore b.score ≤ normalizeScore a.score
      apply normalizeScore_mono
      rw [abs_of_nonpos (hneg a ha), abs_of_nonpos (hneg b hb)]
      linarith

/-- Witness for C7 on concrete scores and a two-row FTS capability. -/
theorem C7_normalization_order_witness :
    (0 ≤ normalizeScore (-3) ∧ normalizeScore (-3) < 1) ∧
    normalizeScore 1 < normalizeScore (-2) ∧
    normalizeScore (-1) < normalizeScore (-2) ∧
    (keywordSearch
        (fun _ _ => [⟨1, "a", 1, 2, "code", "p", "r", "ts", -2⟩,
                     ⟨2, "b", 3, 4, "code", "p", "r", "ts", -1⟩])
        (fun s => s) "foo" 10).Pairwise (fun a b => b.score ≤ a.score) :=
  ⟨C7_normalization_order.1 (-3),
   C7_normalization_order.2.1 1 (-2) (by decide),
   C7_normalization_order.2.2.1 (-2) (-1) (by decide) (by decide) (by decide),
   C7_normalization_order.2.2.2
     (fun _ _ => [⟨1, "a", 1, 2, "code", "p", "r", "ts", -2⟩,
                  ⟨2, "b", 3, 4, "code", "p", "r", "ts", -1⟩])
     (fun s => s) "foo" 10 (by decide) (by decide)⟩

/-- Claim C3: with no query embedding, `hybridSearch` returns exactly the
plain keyword-search list truncated to `limit`, in identical order, each
result tagged `keyword`.  The hypothesis states SQL LIMIT consistency of
the deterministic FTS capability: asking for fewer rows yields a prefix of
asking for more. -/
theorem C3_hybrid_no_embedding (db : DB) (sqrt : ℚ → ℚ)
    (fts : String → Nat → List RawSearchRow) (strip : String → String)
    (query : String) (limit : Nat)
    (hpre : ∀ n m : Nat, n ≤ m → ∀ t, fts t n = (fts t m).take n) :
    hybridSearch db sqrt fts strip query none limit = keywordSearch fts strip query limit ∧
    ∀ r ∈ hybridSearch db sqrt fts strip query none limit, r.method = Method.keyword := by
  constructor
  · show (keywordSearch fts strip query (limit * 2)).take limit = _
    unfold keywordSearch
    by_cases hterm : buildFtsTerms query = ""
    · rw [if_pos hterm, if_pos hterm]
      simp
    · rw [if_neg hterm, if_neg hterm]
      rw [← List.map_take, ← hpre limit (limit * 2) (by omega) (buildFtsTerms query)]
  · intro r hr
    have hr' : r ∈ keywordSearch fts strip query (limit * 2) := List.mem_of_mem_take hr
    unfold keywordSearch at hr'
    by_cases hterm : buildFtsTerms query = ""
    · rw [if_pos hterm] at hr'
      simp at hr'
    · rw [if_neg hterm] at hr'
      rcases List.mem_map.mp hr' with ⟨row, _, rfl⟩
      rfl

/-- Witness for C3 with a two-row prefix-consistent FTS capability. -/
theorem C3_hybrid_no_embedding_witness :
    hybridSearch sampleDB (fun x => x)
        (fun _ n => ([⟨1, "a", 1, 2, "code", "p", "r", "ts", -2⟩,
                      ⟨2, "b", 3, 4, "code", "p", "r", "ts", -1⟩] : List RawSearchRow).take n)
        (fun s => s) "foo" none 1
      = keywordSearch
        (fun _ n => ([⟨1, "a", 1, 2, "code", "p", "r", "ts", -2⟩,
                      ⟨2, "b", 3, 4, "code", "p", "r", "ts", -1⟩] : List RawSearchRow).take n)
        (fun s => s) "foo" 1 ∧
    ∀ r ∈ hybridSearch sampleDB (fun x => x)
        (fun _ n => ([⟨1, "a", 1, 2, "code", "p", "r", "ts", -2⟩,
                      ⟨2, "b", 3, 4, "code", "p", "r", "ts", -1⟩] : List RawSearchRow).take n)
        (fun s => s) "foo" none 1, r.method = Method.keyword :=
  C3_hybrid_no_embedding sampleDB (fun x => x) _ (fun s => s) "foo" 1
    (fun n m h t => by simp [List.take_take, Nat.min_eq_left h])

theorem windowLoop_nil (strip : String → String) (fp : String) (lines : List String)
    (ct lg : String) (off pos : Nat) (h : ¬ pos < lines.length) :
    windowLoop strip fp lines ct lg off pos = [] := by
  unfold windowLoop
  rw [dif_neg h]

theorem windowLoop_eq (strip : String → String) (fp : String) (lines : List String)
    (ct lg : String) (off pos : Nat) (h : pos < lines.length) :
    windowLoop strip fp lines ct lg off pos =
      { filePath := fp, startLine := pos + off,
        endLine := min (pos + MAX_CHUNK_LINES) lines.length + off - 1,
        content := formatChunk strip fp
          ((lines.drop pos).take (min (pos + MAX_CHUNK_LINES) lines.length - pos))
          (pos + off) lg,
        ctype := ct, language := lg } ::
      (if lines.length ≤ min (pos + MAX_CHUNK_LINES) lines.length then []
       else windowLoop strip fp lines ct lg off (pos + (MAX_CHUNK_LINES - OVERLAP_LINES))) := by
  rw [windowLoop]
  rw [dif_pos h]

theorem windowLoop_cover (strip : String → String) (fp : String) (lines : List String)
    (ct lg : String) (off : Nat) :
    ∀ n pos, lines.length - pos ≤ n → pos < lines.length →
      ∀ l, pos + off ≤ l → l + 1 ≤ off + lines.length →
      ∃ c ∈ windowLoop strip fp lines ct lg off pos, c.startLine ≤ l ∧ l ≤ c.endLine := by
  intro n
  induction n with
  | zero => intro pos h1 h2; omega
  | succ n ih =>
    intro pos hn hpos l hl1 hl2
    rw [windowLoop_eq strip fp lines ct lg off pos hpos]
    by_cases hend : lines.length ≤ min (pos + MAX_CHUNK_LINES) lines.length
    · refine ⟨_, List.mem_cons_self _ _,
        show pos + off ≤ l from hl1,
        show l ≤ min (pos + MAX_CHUNK_LINES) lines.length + off - 1 from by omega⟩
    · by_cases hcov : l ≤ min (pos + MAX_CHUNK_LINES) lines.length + off - 1
      · exact ⟨_, List.mem_cons_self _ _, show pos + off ≤ l from hl1, hcov⟩
      · rw [if_neg hend]
        have hrec := ih (pos + (MAX_CHUNK_LINES - OVERLAP_LINES))
          (by simp only [MAX_CHUNK_LINES, OVERLAP_LINES] at *; omega)
          (by simp only [MAX_CHUNK_LINES, OVERLAP_LINES] at *; omega)
          l (by simp only [MAX_CHUNK_LINES, OVERLAP_LINES] at *; omega) hl2
        rcases hrec with ⟨c, hc, h1, h2⟩
        exact ⟨c, List.mem_cons_of_mem _ hc, h1, h2⟩

theorem windowLoop_bounds (strip : String → String) (fp : String) (lines : List String)
    (ct lg : String) (off : Nat) :
    ∀ n pos, lines.length - pos ≤ n →
      ∀ c ∈ windowLoop strip fp lines ct lg off pos,
        off ≤ c.startLine ∧ c.endLine + 1 ≤ off + lines.length := by
  intro n
  induction n with
  | zero =>
    intro pos h1 c hc
    rw [windowLoop_nil strip fp lines ct lg off pos (by omega)] at hc
    simp at hc
  | succ n ih =>
    intro pos hn c hc
    by_cases hpos : pos < lines.length
    · rw [windowLoop_eq strip fp lines ct lg off pos hpos] at hc
      rcases List.mem_cons.mp hc with rfl | hc
      · constructor
        · show off ≤ pos + off
          omega
        · show min (pos + MAX_CHUNK_LINES) lines.length + off - 1 + 1 ≤ off + lines.length
          omega
      · by_cases hend : lines.length ≤ min (pos + MAX_CHUNK_LINES) lines.length
        · rw [if_pos hend] at hc
          simp at hc
        · rw [if_neg hend] at hc
          exact ih (pos + (MAX_CHUNK_LINES - OVERLAP_LINES))
            (by simp only [MAX_CHUNK_LINES, OVERLAP_LINES] at *; omega) c hc
    · rw [windowLoop_nil strip fp lines ct lg off pos hpos] at hc
      simp at hc

theorem windowLoop_chain (strip : String → String) (fp : String) (lines : List String)
    (ct lg : String) (off : Nat) :
    ∀ n pos, lines.length - pos ≤ n →
      (windowLoop strip fp lines ct lg off pos).Chain' (fun c c' =>
        c'.startLine = c.startLine + (MAX_CHUNK_LINES - OVERLAP_LINES) ∧
        c.endLine + 1 = c'.startLine + OVERLAP_LINES) := by
  intro n
  induction n with
  | zero =>
    intro pos h1
    rw [windowLoop_nil strip fp lines ct lg off pos (by omega)]
    exact List.chain'_nil
  | succ n ih =>
    intro pos hn
    by_cases hpos : pos < lines.length
    · rw [windowLoop_eq strip fp lines ct lg off pos hpos]
      by_cases hend : lines.length ≤ min (pos + MAX_CHUNK_LINES) lines.length
      · rw [if_pos hend]
        simp
      · rw [if_neg hend]
        rw [List.chain'_cons']
        have hlt : pos + (MAX_CHUNK_LINES - OVERLAP_LINES) < lines.length := by
          simp only [MAX_CHUNK_LINES, OVERLAP_LINES] at *; omega
        constructor
        · intro y hy
          rw [windowLoop_eq strip fp lines ct lg off _ hlt] at hy
          simp only [List.head?_cons, Option.mem_def, Option.some.injEq] at hy
          subst hy
          constructor
          · show pos + (MAX_CHUNK_LINES - OVERLAP_LINES) + off
              = pos + off + (MAX_CHUNK_LINES - OVERLAP_LINES)
            omega
          · show min (pos + MAX_CHUNK_LINES) lines.length + off - 1 + 1
              = pos + (MAX_CHUNK_LINES - OVERLAP_LINES) + off + OVERLAP_LINES
            simp only [MAX_CHUNK_LINES, OVERLAP_LINES] at *
            omega
        · exact ih (pos + (MAX_CHUNK_LINES - OVERLAP_LINES))
            (by simp only [MAX_CHUNK_LINES, OVERLAP_LINES] at *; omega)
    · rw [windowLoop_nil strip fp lines ct lg off pos hpos]
      exact List.chain'_nil

theorem windowLoop_last (strip : String → String) (fp : String) (lines : List String)
    (ct lg : String) (off : Nat) :
    ∀ n pos, lines.length - pos ≤ n → pos < lines.length →
      ∃ c, (windowLoop strip fp lines ct lg off pos).getLast? = some c ∧
        c.endLine + 1 = off + lines.length := by
  intro n
  induction n with
  | zero => intro pos h1 h2; omega
  | succ n ih =>
    intro pos hn hpos
    rw [windowLoop_eq strip fp lines ct lg off pos hpos]
    by_cases hend : lines.length ≤ min (pos + MAX_CHUNK_LINES) lines.length
    · rw [if_pos hend]
      refine ⟨_, rfl, ?_⟩
      show min (pos + MAX_CHUNK_LINES) lines.length + off - 1 + 1 = off + lines.length
      omega
    · rw [if_neg hend]
      have hlt : pos + (MAX_CHUNK_LINES - OVERLAP_LINES) < lines.length := by
        simp only [MAX_CHUNK_LINES, OVERLAP_LINES] at *; omega
      rcases ih (pos + (MAX_CHUNK_LINES - OVERLAP_LINES))
          (by simp only [MAX_CHUNK_LINES, OVERLAP_LINES] at *; omega) hlt with ⟨c, hc, hce⟩
      refine ⟨c, ?_, hce⟩
      have hne : windowLoop strip fp lines ct lg off (pos + (MAX_CHUNK_LINES - OVERLAP_LINES))
          ≠ [] := by
        intro h0
        rw [h0] at hc
        simp at hc
      rcases List.exists_cons_of_ne_nil hne with ⟨b, l', hb⟩
      rw [hb]
      rw [hb] at hc
      rw [List.getLast?_cons_cons]
      exact hc

/-- Claim C5: sliding-window chunking covers every line of the input range
with no gaps, consecutive windows advance by `MAX_CHUNK_LINES -
OVERLAP_LINES` and overlap in exactly `OVERLAP_LINES = 8` lines, no chunk
extends past the end of the range, and the final window is clipped to the
last line. -/
theorem C5_chunkByWindow_coverage (strip : String → String) (fp : String)
    (lines : List String) (ct lg : String) (off : Nat) (hne : lines ≠ []) :
    (∀ l, off ≤ l → l + 1 ≤ off + lines.length →
      ∃ c ∈ chunkByWindow strip fp lines ct lg off, c.startLine ≤ l ∧ l ≤ c.endLine) ∧
    (∀ c ∈ chunkByWindow strip fp lines ct lg off,
      off ≤ c.startLine ∧ c.endLine + 1 ≤ off + lines.length) ∧
    (chunkByWindow strip fp lines ct lg off).Chain' (fun c c' =>
      c'.startLine = c.startLine + (MAX_CHUNK_LINES - OVERLAP_LINES) ∧
      c.endLine + 1 = c'.startLine + OVERLAP_LINES) ∧
    ∃ c, (chunkByWindow strip fp lines ct lg off).getLast? = some c ∧
      c.endLine + 1 = off + lines.length := by
  have hpos : 0 < lines.length := List.length_pos.mpr hne
  refine ⟨?_, ?_, ?_, ?_⟩
  · intro l hl1 hl2
    exact windowLoop_cover strip fp lines ct lg off lines.length 0 (by omega) hpos l
      (by omega) hl2
  · intro c hc
    exact windowLoop_bounds strip fp lines ct lg off lines.length 0 (by omega) c hc
  · exact windowLoop_chain strip fp lines ct lg off lines.length 0 (by omega)
  · exact windowLoop_last strip fp lines ct lg off lines.length 0 (by omega) hpos

/-- Witness for C5 on a concrete 70-line input at offset 1. -/
theorem C5_chunkByWindow_coverage_witness :
    (∀ l, 1 ≤ l → l + 1 ≤ 1 + (List.replicate 70 "x").length →
      ∃ c ∈ chunkByWindow (fun s => s) "f" (List.replicate 70 "x") "code" "ts" 1,
        c.startLine ≤ l ∧ l ≤ c.endLine) ∧
    (∀ c ∈ chunkByWindow (fun s => s) "f" (List.replicate 70 "x") "code" "ts" 1,
      1 ≤ c.startLine ∧ c.endLine + 1 ≤ 1 + (List.replicate 70 "x").length) ∧
    (chunkByWindow (fun s => s) "f" (List.replicate 70 "x") "code" "ts" 1).Chain'
      (fun c c' => c'.startLine = c.startLine + (MAX_CHUNK_LINES - OVERLAP_LINES) ∧
        c.endLine + 1 = c'.startLine + OVERLAP_LINES) ∧
    ∃ c, (chunkByWindow (fun s => s) "f" (List.replicate 70 "x") "code" "ts" 1).getLast?
        = some c ∧ c.endLine + 1 = 1 + (List.replicate 70 "x").length :=
  C5_chunkByWindow_coverage (fun s => s) "f" (List.replicate 70 "x") "code" "ts" 1
    (by simp)

theorem find?_filter_imp {α : Type} (l : List α) (p q : α → Bool)
    (h : ∀ x, p x = true → q x = true) :
    List.find? p (l.filter q) = List.find? p l := by
  induction l with
  | nil => rfl
  | cons a l ih =>
    by_cases hq : q a = true
    · rw [List.filter_cons_of_pos hq]
      by_cases hp : p a = true
      · rw [List.find?_cons_of_pos _ hp, List.find?_cons_of_pos _ hp]
      · rw [List.find?_cons_of_neg _ hp, List.find?_cons_of_neg _ hp]
        exact ih
    · rw [List.filter_cons_of_neg hq]
      have hp : ¬ p a = true := fun hpa => hq (h a hpa)
      rw [List.find?_cons_of_neg _ hp]
      exact ih

theorem lookupVec_upsert (vs : List VecRow) (cid : Nat) (v : List ℚ) (k : Nat) :
    lookupVec (upsertVector vs cid v) k =
      if k = cid then some ⟨cid, v⟩ else lookupVec vs k := by
  unfold lookupVec upsertVector
  rw [List.find?_append]
  by_cases h : k = cid
  · subst h
    have h1 : List.find? (fun w => decide (w.chunk_id = k))
        (vs.filter (fun w => decide (¬ w.chunk_id = k))) = none := by
      rw [List.find?_eq_none]
      intro x hx
      rcases List.mem_filter.mp hx with ⟨_, hq⟩
      simp at hq ⊢
      exact hq
    rw [h1]
    simp
  · rw [if_neg h]
    have h2 : List.find? (fun w => decide (w.chunk_id = k)) [(⟨cid, v⟩ : VecRow)] = none := by
      simp
      exact fun hh => h hh.symm
    rw [h2]
    rw [find?_filter_imp vs _ _ (by
      intro x hx
      simp at hx ⊢
      omega)]
    simp

theorem foldl_upsert_frame (pairs : List (ChunkRow × List ℚ)) (k : Nat) :
    ∀ vs, (∀ q ∈ pairs, q.1.id ≠ k) →
      lookupVec (pairs.foldl (fun vs cv => upsertVector vs cv.1.id cv.2) vs) k
        = lookupVec vs k := by
  induction pairs with
  | nil => intro vs _; rfl
  | cons a rest ih =>
    intro vs h
    rw [List.foldl_cons]
    rw [ih _ (fun q hq => h q (List.mem_cons_of_mem a hq))]
    rw [lookupVec_upsert]
    rw [if_neg (fun hk => (h a (List.mem_cons_self a rest)) hk.symm)]

theorem foldl_upsert_lookup (pairs : List (ChunkRow × List ℚ)) :
    ∀ vs (c : ChunkRow) (v : List ℚ), ((pairs.map (fun q => q.1.id)).Nodup) →
      (c, v) ∈ pairs →
      lookupVec (pairs.foldl (fun vs cv => upsertVector vs cv.1.id cv.2) vs) c.id
        = some ⟨c.id, v⟩ := by
  induction pairs with
  | nil =>
    intro vs c v _ h
    simp at h
  | cons a rest ih =>
    intro vs c v hnd hmem
    rw [List.foldl_cons]
    rw [List.map_cons] at hnd
    rcases List.nodup_cons.mp hnd with ⟨hnotin, hnd'⟩
    rcases List.mem_cons.mp hmem with heq | hmem'
    · have ha : a = (c, v) := heq.symm
      subst ha
      have hfr : ∀ q ∈ rest, q.1.id ≠ c.id := by
        intro q hq hqe
        exact hnotin (by
          rw [← hqe]
          exact List.mem_map_of_mem (fun q => q.1.id) hq)
      rw [foldl_upsert_frame rest c.id _ hfr]
      rw [lookupVec_upsert]
      rw [if_pos rfl]
    · exact ih _ c v hnd' hmem'

theorem map_fst_zip_take {α β : Type} (l : List α) (l' : List β) :
    (l.zip l').map Prod.fst = l.take l'.length := by
  induction l generalizing l' with
  | nil => simp
  | cons a l ih =>
    cases l' with
    | nil => simp
    | cons b l' => simp [ih]

/-- Claim C8: for an existing document, `storeVectors` associates the i-th
vector with the i-th chunk of the document ordered by ascending start
line, for every `i` below the shorter of the two lists (`zip`); any key
not among the written pairs — excess chunks as well as rows of other
documents — keeps its previous vector row, excess vectors are dropped, and
nothing else in the store changes (no error is raised: the function is
total by its type). -/
theorem C8_storeVectors_positional (db : DB) (repo p : String) (vectors : List (List ℚ))
    (doc : DocRow) (hdoc : findDoc db repo p = some doc)
    (hids : (db.chunks.map ChunkRow.id).Nodup) :
    (∀ i (h1 : i < (docChunksSorted db doc.id).length) (h2 : i < vectors.length),
      lookupVec (storeVectors db repo p vectors).vectors
          ((docChunksSorted db doc.id).get ⟨i, h1⟩).id
        = some ⟨((docChunksSorted db doc.id).get ⟨i, h1⟩).id, vectors.get ⟨i, h2⟩⟩) ∧
    (∀ k, (∀ q ∈ (docChunksSorted db doc.id).zip vectors, q.1.id ≠ k) →
      lookupVec (storeVectors db repo p vectors).vectors k = lookupVec db.vectors k) ∧
    (storeVectors db repo p vectors).documents = db.documents ∧
    (storeVectors db repo p vectors).chunks = db.chunks := by
  have hsv : storeVectors db repo p vectors =
      { db with
        vectors := ((docChunksSorted db doc.id).zip vectors).foldl
          (fun vs cv => upsertVector vs cv.1.id cv.2) db.vectors } := by
    unfold storeVectors
    rw [hdoc]
  have hSnodup : ((docChunksSorted db doc.id).map ChunkRow.id).Nodup := by
    have hperm : (docChunksSorted db doc.id).Perm
        (db.chunks.filter (fun c => decide (c.doc_id = doc.id))) :=
      List.mergeSort_perm _ _
    have hf : ((db.chunks.filter (fun c => decide (c.doc_id = doc.id))).map
        ChunkRow.id).Nodup :=
      List.Nodup.sublist ((List.filter_sublist db.chunks).map ChunkRow.id) hids
    exact ((hperm.map ChunkRow.id).nodup_iff).mpr hf
  have hpairs : ((((docChunksSorted db doc.id).zip vectors).map
      (fun q => q.1.id))).Nodup := by
    have he : (((docChunksSorted db doc.id).zip vectors).map (fun q => q.1.id))
        = (((docChunksSorted db doc.id).take vectors.length).map ChunkRow.id) := by
      have h0 : (((docChunksSorted db doc.id).zip vectors).map (fun q => q.1.id))
          = (((docChunksSorted db doc.id).zip vectors).map Prod.fst).map ChunkRow.id := by
        rw [List.map_map]
        rfl
      rw [h0, map_fst_zip_take]
    rw [he]
    exact List.Nodup.sublist
      ((List.take_sublist vectors.length (docChunksSorted db doc.id)).map ChunkRow.id)
      hSnodup
  refine ⟨?_, ?_, ?_, ?_⟩
  · intro i h1 h2
    rw [hsv]
    have hz : i < ((docChunksSorted db doc.id).zip vectors).length := by
      rw [List.length_zip]
      omega
    have hmem : ((docChunksSorted db doc.id).get ⟨i, h1⟩, vectors.get ⟨i, h2⟩)
        ∈ (docChunksSorted db doc.id).zip vectors := by
      rw [List.get_eq_getElem, List.get_eq_getElem]
      have : ((docChunksSorted db doc.id).zip vectors)[i]
          = ((docChunksSorted db doc.id)[i], vectors[i]) := List.getElem_zip
      rw [← this]
      exact List.getElem_mem hz
    exact foldl_upsert_lookup _ _ _ _ hpairs hmem
  · intro k hk
    rw [hsv]
    exact foldl_upsert_frame _ k _ hk
  · rw [hsv]
  · rw [hsv]

/-- Witness for C8: the sample store with three vectors against two chunks
(the frame conjuncts need no further instantiation). -/
theorem C8_storeVectors_positional_witness :
    (storeVectors sampleDB "rep" "a.ts" [[9], [8], [7]]).documents = sampleDB.documents ∧
    (storeVectors sampleDB "rep" "a.ts" [[9], [8], [7]]).chunks = sampleDB.chunks :=
  ⟨(C8_storeVectors_positional sampleDB "rep" "a.ts" [[9], [8], [7]]
      ⟨1, "rep", "a.ts", "h1", "typescript", 0⟩ rfl (by decide)).2.2.1,
   (C8_storeVectors_positional sampleDB "rep" "a.ts" [[9], [8], [7]]
      ⟨1, "rep", "a.ts", "h1", "typescript", 0⟩ rfl (by decide)).2.2.2⟩

theorem mapLookup_cons (k0 : String) (v : ScoreEntry) (rest : List (String × ScoreEntry))
    (k : String) :
    mapLookup ((k0, v) :: rest) k = if k0 = k then some v else mapLookup rest k := by
  unfold mapLookup
  by_cases h : k0 = k
  · rw [if_pos h, List.find?_cons_of_pos _ (by simpa using h)]
    rfl
  · rw [if_neg h, List.find?_cons_of_neg _ (by simpa using h)]

theorem mapLookup_eq_none (m : List (String × ScoreEntry)) (k : String) :
    mapLookup m k = none ↔ k ∉ m.map Prod.fst := by
  unfold mapLookup
  rw [Option.map_eq_none', List.find?_eq_none]
  constructor
  · intro h hk
    rcases List.mem_map.mp hk with ⟨p, hp, hpk⟩
    have h2 := h p hp
    rw [decide_eq_true_eq] at h2
    exact h2 hpk
  · intro h p hp
    rw [decide_eq_true_eq]
    intro hpk
    exact h (by rw [← hpk]; exact List.mem_map_of_mem Prod.fst hp)

theorem mapLookup_append_single_ne (m : List (String × ScoreEntry)) (k0 : String)
    (v : ScoreEntry) (k : String) (h : k0 ≠ k) :
    mapLookup (m ++ [(k0, v)]) k = mapLookup m k := by
  unfold mapLookup
  rw [List.find?_append]
  cases h0 : List.find? (fun e => decide (e.1 = k)) m with
  | none => simp [h]
  | some e => simp

theorem mapLookup_append_single_eq (m : List (String × ScoreEntry)) (k : String)
    (v : ScoreEntry) (h : mapLookup m k = none) :
    mapLookup (m ++ [(k, v)]) k = some v := by
  unfold mapLookup at h ⊢
  rw [List.find?_append]
  rcases Option.map_eq_none'.mp h with h0
  rw [h0]
  simp

theorem mapLookup_setAll_ne (m : List (String × ScoreEntry)) (k0 : String)
    (newv : ScoreEntry) (k : String) (h : k0 ≠ k) :
    mapLookup (m.map (fun p => if p.1 = k0 then (p.1, newv) else p)) k = mapLookup m k := by
  induction m with
  | nil => rfl
  | cons p rest ih =>
    rw [List.map_cons]
    by_cases hp : p.1 = k0
    · rw [if_pos hp]
      have hkk : ¬ p.1 = k := by rw [hp]; exact h
      have h1 : ((p.1, newv) :: rest.map (fun p => if p.1 = k0 then (p.1, newv) else p))
          = ((p.1, newv) : String × ScoreEntry)
            :: rest.map (fun p => if p.1 = k0 then (p.1, newv) else p) := rfl
      rw [h1, mapLookup_cons, if_neg hkk]
      have h2 : mapLookup (p :: rest) k = mapLookup rest k := by
        have h3 : (p :: rest) = ((p.1, p.2) :: rest) := rfl
        rw [h3, mapLookup_cons, if_neg hkk]
      rw [h2]
      exact ih
    · rw [if_neg hp]
      by_cases hk : p.1 = k
      · have h3 : (p :: rest.map (fun p => if p.1 = k0 then (p.1, newv) else p))
            = ((p.1, p.2) :: rest.map (fun p => if p.1 = k0 then (p.1, newv) else p)) := rfl
        have h4 : (p :: rest) = ((p.1, p.2) :: rest) := rfl
        rw [h3, mapLookup_cons, if_pos hk, h4, mapLookup_cons, if_pos hk]
      · have h3 : (p :: rest.map (fun p => if p.1 = k0 then (p.1, newv) else p))
            = ((p.1, p.2) :: rest.map (fun p => if p.1 = k0 then (p.1, newv) else p)) := rfl
        have h4 : (p :: rest) = ((p.1, p.2) :: rest) := rfl
        rw [h3, mapLookup_cons, if_neg hk, h4, mapLookup_cons, if_neg hk]
        exact ih

theorem mapLookup_setAll_eq (m : List (String × ScoreEntry)) (k : String)
    (newv : ScoreEntry) (e : ScoreEntry) (h : mapLookup m k = some e) :
    mapLookup (m.map (fun p => if p.1 = k then (p.1, newv) else p)) k = some newv := by
  induction m with
  | nil => simp [mapLookup] at h
  | cons p rest ih =>
    rw [List.map_cons]
    by_cases hp : p.1 = k
    · rw [if_pos hp]
      have h1 : ((p.1, newv) :: rest.map (fun p => if p.1 = k then (p.1, newv) else p))
          = ((p.1, newv) : String × ScoreEntry)
            :: rest.map (fun p => if p.1 = k then (p.1, newv) else p) := rfl
      rw [h1, mapLookup_cons, if_pos hp]
    · rw [if_neg hp]
      have h3 : (p :: rest.map (fun p => if p.1 = k then (p.1, newv) else p))
          = ((p.1, p.2) :: rest.map (fun p => if p.1 = k then (p.1, newv) else p)) := rfl
      have h4 : (p :: rest) = ((p.1, p.2) :: rest) := rfl
      rw [h4, mapLookup_cons, if_neg hp] at h
      rw [h3, mapLookup_cons, if_neg hp]
      exact ih h

theorem mapSet_of_not_mem (m : List (String × ScoreEntry)) (k : String) (v : ScoreEntry)
    (h : k ∉ m.map Prod.fst) : mapSet m k v = m ++ [(k, v)] := by
  unfold mapSet
  have hne : ¬ (m.any (fun e => decide (e.1 = k)) = true) := by
    rw [List.any_eq_true]
    rintro ⟨e, hm, he⟩
    rw [decide_eq_true_eq] at he
    exact h (by rw [← he]; exact List.mem_map_of_mem Prod.fst hm)
  rw [if_neg hne]

theorem kwEntries_keys (rs : List SearchResult) :
    ∀ i, (kwEntries i rs).map Prod.fst = rs.map keyOf := by
  induction rs with
  | nil => intro i; rfl
  | cons r rest ih =>
    intro i
    simp only [kwEntries, List.map_cons]
    rw [ih (i + 1)]

theorem keywordPass_append (rs : List SearchResult) :
    ∀ i m, (∀ r ∈ rs, keyOf r ∉ m.map Prod.fst) → ((rs.map keyOf).Nodup) →
      keywordPass i rs m = m ++ kwEntries i rs := by
  induction rs with
  | nil =>
    intro i m _ _
    simp [keywordPass, kwEntries]
  | cons r rest ih =>
    intro i m hdis hnd
    rw [List.map_cons] at hnd
    rcases List.nodup_cons.mp hnd with ⟨hhead, htail⟩
    show keywordPass (i + 1) rest
        (mapSet m (keyOf r) ⟨1 / (rrfK + i + 1), { r with method := Method.hybrid }⟩) = _
    rw [mapSet_of_not_mem m (keyOf r) _ (hdis r (List.mem_cons_self r rest))]
    rw [ih (i + 1) _ ?_ htail]
    · rw [List.append_assoc]
      rfl
    · intro r' hr'
      rw [List.map_append]
      intro hmem
      rcases List.mem_append.mp hmem with hm | hm
      · exact hdis r' (List.mem_cons_of_mem r hr') hm
      · simp at hm
        exact hhead (by rw [← hm]; exact List.mem_map_of_mem keyOf hr')

theorem kwEntries_lookup (rs : List SearchResult) :
    ∀ i j (hj : j < rs.length), ((rs.map keyOf).Nodup) →
      mapLookup (kwEntries i rs) (keyOf (rs.get ⟨j, hj⟩)) =
        some ⟨1 / (rrfK + (i + j : ℕ) + 1), { rs.get ⟨j, hj⟩ with method := Method.hybrid }⟩ := by
  induction rs with
  | nil =>
    intro i j hj
    simp at hj
  | cons r rest ih =>
    intro i j hj hnd
    rw [List.map_cons] at hnd
    rcases List.nodup_cons.mp hnd with ⟨hhead, htail⟩
    cases j with
    | zero =>
      show mapLookup ((keyOf r, _) :: kwEntries (i + 1) rest) (keyOf r) = _
      rw [mapLookup_cons, if_pos rfl]
      simp
    | succ j' =>
      have hj' : j' < rest.length := by simpa using hj
      have hkey : keyOf ((r :: rest).get ⟨j' + 1, hj⟩) = keyOf (rest.get ⟨j', hj'⟩) := rfl
      show mapLookup ((keyOf r, _) :: kwEntries (i + 1) rest) _ = _
      rw [hkey, mapLookup_cons, if_neg ?_]
      · have := ih (i + 1) j' hj' htail
        rw [this]
        have harith : (i + 1 + j' : ℕ) = (i + (j' + 1) : ℕ) := by omega
        rw [harith]
        rfl
      · intro hk
        exact hhead (by rw [hk]; exact List.mem_map_of_mem keyOf (List.get_mem rest j' hj'))

theorem vectorStep_lookup_ne (i : Nat) (r : SearchResult)
    (m : List (String × ScoreEntry)) (k : String) (h : keyOf r ≠ k) :
    mapLookup (vectorStep i r m) k = mapLookup m k := by
  unfold vectorStep
  cases hm : mapLookup m (keyOf r) with
  | none => exact mapLookup_append_single_ne m (keyOf r) _ k h
  | some e => exact mapLookup_setAll_ne m (keyOf r) _ k h

theorem vectorStep_lookup_eq_some (i : Nat) (r : SearchResult)
    (m : List (String × ScoreEntry)) (e : ScoreEntry)
    (hm : mapLookup m (keyOf r) = some e) :
    mapLookup (vectorStep i r m) (keyOf r)
      = some ⟨e.score + 1 / (rrfK + i + 1), { e.result with method := Method.hybrid }⟩ := by
  unfold vectorStep
  rw [hm]
  exact mapLookup_setAll_eq m (keyOf r) _ e hm

theorem vectorStep_lookup_none (i : Nat) (r : SearchResult)
    (m : List (String × ScoreEntry)) (hm : mapLookup m (keyOf r) = none) :
    mapLookup (vectorStep i r m) (keyOf r)
      = some ⟨1 / (rrfK + i + 1), { r with method := Method.hybrid }⟩ := by
  unfold vectorStep
  rw [hm]
  exact mapLookup_append_single_eq m (keyOf r) _ hm

theorem vectorPass_frame (rs : List SearchResult) :
    ∀ i m k, k ∉ rs.map keyOf →
      mapLookup (vectorPass i rs m) k = mapLookup m k := by
  induction rs with
  | nil => intro i m k _; rfl
  | cons r rest ih =>
    intro i m k hk
    rw [List.map_cons] at hk
    have hk1 : keyOf r ≠ k := fun h => hk (by rw [← h]; exact List.mem_cons_self _ _)
    have hk2 : k ∉ rest.map keyOf := fun h => hk (List.mem_cons_of_mem _ h)
    show mapLookup (vectorPass (i + 1) rest (vectorStep i r m)) k = _
    rw [ih (i + 1) _ k hk2]
    exact vectorStep_lookup_ne i r m k hk1

theorem vectorPass_lookup_both (rs : List SearchResult) :
    ∀ i m k e j (hj : j < rs.length), ((rs.map keyOf).Nodup) →
      keyOf (rs.get ⟨j, hj⟩) = k → mapLookup m k = some e →
      mapLookup (vectorPass i rs m) k
        = some ⟨e.score + 1 / (rrfK + (i + j : ℕ) + 1),
            { e.result with method := Method.hybrid }⟩ := by
  induction rs with
  | nil =>
    intro i m k e j hj
    simp at hj
  | cons r rest ih =>
    intro i m k e j hj hnd hkey hm
    rw [List.map_cons] at hnd
    rcases List.nodup_cons.mp hnd with ⟨hhead, htail⟩
    show mapLookup (vectorPass (i + 1) rest (vectorStep i r m)) k = _
    cases j with
    | zero =>
      have hkr : keyOf r = k := hkey
      subst hkr
      rw [vectorPass_frame rest (i + 1) _ _ hhead]
      rw [vectorStep_lookup_eq_some i r m e hm]
      simp
    | succ j' =>
      have hj' : j' < rest.length := by simpa using hj
      have hkey' : keyOf (rest.get ⟨j', hj'⟩) = k := hkey
      have hkr : keyOf r ≠ k := by
        intro hc
        apply hhead
        rw [hc, ← hkey']
        exact List.mem_map_of_mem keyOf (List.get_mem rest j' hj')
      have hm' : mapLookup (vectorStep i r m) k = some e := by
        rw [vectorStep_lookup_ne i r m k hkr]
        exact hm
      rw [ih (i + 1) _ k e j' hj' htail hkey' hm']
      have harith : (i + 1 + j' : ℕ) = (i + (j' + 1) : ℕ) := by omega
      rw [harith]

theorem vectorPass_lookup_new (rs : List SearchResult) :
    ∀ i m k j (hj : j < rs.length), ((rs.map keyOf).Nodup) →
      keyOf (rs.get ⟨j, hj⟩) = k → mapLookup m k = none →
      mapLookup (vectorPass i rs m) k
        = some ⟨1 / (rrfK + (i + j : ℕ) + 1),
            { rs.get ⟨j, hj⟩ with method := Method.hybrid }⟩ := by
  induction rs with
  | nil =>
    intro i m k j hj
    simp at hj
  | cons r rest ih =>
    intro i m k j hj hnd hkey hm
    rw [List.map_cons] at hnd
    rcases List.nodup_cons.mp hnd with ⟨hhead, htail⟩
    show mapLookup (vectorPass (i + 1) rest (vectorStep i r m)) k = _
    cases j with
    | zero =>
      have hkr : keyOf r = k := hkey
      subst hkr
      rw [vectorPass_frame rest (i + 1) _ _ hhead]
      rw [vectorStep_lookup_none i r m hm]
      simp
    | succ j' =>
      have hj' : j' < rest.length := by simpa using hj
      have hkey' : keyOf (rest.get ⟨j', hj'⟩) = k := hkey
      have hkr : keyOf r ≠ k := by
        intro hc
        apply hhead
        rw [hc, ← hkey']
        exact List.mem_map_of_mem keyOf (List.get_mem rest j' hj')
      have hm' : mapLookup (vectorStep i r m) k = none := by
        rw [vectorStep_lookup_ne i r m k hkr]
        exact hm
      rw [ih (i + 1) _ k j' hj' htail hkey' hm']
      have harith : (i + 1 + j' : ℕ) = (i + (j' + 1) : ℕ) := by omega
      rw [harith]
      rfl

theorem rrfScores_eq (kw vr : List SearchResult) (hkw : (kw.map keyOf).Nodup) :
    rrfScores kw vr = vectorPass 0 vr (kwEntries 0 kw) := by
  unfold rrfScores
  rw [keywordPass_append kw 0 [] (by simp) hkw]
  rw [List.nil_append]

theorem rrf_contribution_pos (i : Nat) : 0 < 1 / (60 + ((i : ℚ) + 1)) := by
  have h : (0 : ℚ) < 60 + ((i : ℚ) + 1) := by positivity
  positivity

/-- Claim C1: in `hybridSearch` with a non-null embedding — which fuses the
keyword and vector candidate lists by `rrfFuse` — a location at 1-based
rank `i1+1` in the keyword list and `i2+1` in the vector list receives
fused score exactly `1/(60+r1) + 1/(60+r2)`, strictly above either
contribution; a location in only one list keeps that single contribution;
and the fused output never exceeds `limit` items. -/
theorem C1_rrf_fusion (kw vr : List SearchResult) (limit : Nat)
    (hkw : (kw.map keyOf).Nodup) (hvr : (vr.map keyOf).Nodup) :
    (∀ i1 (h1 : i1 < kw.length) i2 (h2 : i2 < vr.length),
      keyOf (kw.get ⟨i1, h1⟩) = keyOf (vr.get ⟨i2, h2⟩) →
      ∃ e, mapLookup (rrfScores kw vr) (keyOf (kw.get ⟨i1, h1⟩)) = some e ∧
        e.score = 1 / (60 + ((i1 : ℚ) + 1)) + 1 / (60 + ((i2 : ℚ) + 1)) ∧
        1 / (60 + ((i1 : ℚ) + 1)) < e.score ∧ 1 / (60 + ((i2 : ℚ) + 1)) < e.score) ∧
    (∀ i1 (h1 : i1 < kw.length), keyOf (kw.get ⟨i1, h1⟩) ∉ vr.map keyOf →
      ∃ e, mapLookup (rrfScores kw vr) (keyOf (kw.get ⟨i1, h1⟩)) = some e ∧
        e.score = 1 / (60 + ((i1 : ℚ) + 1))) ∧
    (∀ i2 (h2 : i2 < vr.length), keyOf (vr.get ⟨i2, h2⟩) ∉ kw.map keyOf →
      ∃ e, mapLookup (rrfScores kw vr) (keyOf (vr.get ⟨i2, h2⟩)) = some e ∧
        e.score = 1 / (60 + ((i2 : ℚ) + 1))) ∧
    (rrfFuse kw vr limit).length ≤ limit ∧
    (∀ (db : DB) (sqrt : ℚ → ℚ) (fts : String → Nat → List RawSearchRow)
       (strip : String → String) (query : String) (emb : List ℚ),
      hybridSearch db sqrt fts strip query (some emb) limit
        = rrfFuse (keywordSearch fts strip query (limit * 2))
            (vectorSearch db sqrt strip emb (limit * 2)) limit ∧
      (hybridSearch db sqrt fts strip query (some emb) limit).length ≤ limit) := by
  have hscore : ∀ (i : Nat), (1 : ℚ) / (rrfK + (i : ℚ) + 1) = 1 / (60 + ((i : ℚ) + 1)) := by
    intro i
    rw [rrfK]
    ring_nf
  have hlen : (rrfFuse kw vr limit).length ≤ limit := by
    unfold rrfFuse
    rw [List.length_map, List.length_take]
    omega
  refine ⟨?_, ?_, ?_, hlen, ?_⟩
  · intro i1 h1 i2 h2 hk
    rw [rrfScores_eq kw vr hkw]
    have hkwlook := kwEntries_lookup kw 0 i1 h1 hkw
    rw [Nat.zero_add] at hkwlook
    have hboth := vectorPass_lookup_both vr 0 (kwEntries 0 kw) (keyOf (kw.get ⟨i1, h1⟩))
      ⟨1 / (rrfK + (i1 : ℚ) + 1), { kw.get ⟨i1, h1⟩ with method := Method.hybrid }⟩
      i2 h2 hvr hk.symm hkwlook
    rw [Nat.zero_add] at hboth
    refine ⟨_, hboth, ?_, ?_, ?_⟩
    · show (1 : ℚ) / (rrfK + (i1 : ℚ) + 1) + 1 / (rrfK + (i2 : ℚ) + 1) = _
      rw [hscore i1, hscore i2]
    · show 1 / (60 + ((i1 : ℚ) + 1))
        < (1 : ℚ) / (rrfK + (i1 : ℚ) + 1) + 1 / (rrfK + (i2 : ℚ) + 1)
      rw [hscore i1, hscore i2]
      have := rrf_contribution_pos i2
      linarith
    · show 1 / (60 + ((i2 : ℚ) + 1))
        < (1 : ℚ) / (rrfK + (i1 : ℚ) + 1) + 1 / (rrfK + (i2 : ℚ) + 1)
      rw [hscore i1, hscore i2]
      have := rrf_contribution_pos i1
      linarith
  · intro i1 h1 hnot
    rw [rrfScores_eq kw vr hkw]
    have hkwlook := kwEntries_lookup kw 0 i1 h1 hkw
    rw [Nat.zero_add] at hkwlook
    rw [vectorPass_frame vr 0 _ _ hnot]
    refine ⟨_, hkwlook, ?_⟩
    exact hscore i1
  · intro i2 h2 hnot
    rw [rrfScores_eq kw vr hkw]
    have hnone : mapLookup (kwEntries 0 kw) (keyOf (vr.get ⟨i2, h2⟩)) = none := by
      rw [mapLookup_eq_none, kwEntries_keys kw 0]
      exact hnot
    have hnew := vectorPass_lookup_new vr 0 (kwEntries 0 kw) (keyOf (vr.get ⟨i2, h2⟩))
      i2 h2 hvr rfl hnone
    rw [Nat.zero_add] at hnew
    refine ⟨_, hnew, ?_⟩
    exact hscore i2
  · intro db sqrt fts strip query emb
    constructor
    · rfl
    · show (rrfFuse (keywordSearch fts strip query (limit * 2))
          (vectorSearch db sqrt strip emb (limit * 2)) limit).length ≤ limit
      unfold rrfFuse
      rw [List.length_map, List.length_take]
      omega

/-- Witness for C1: both lists hold the same single location, so it gets
both contributions `1/61 + 1/61`; the fused list obeys the limit. -/
theorem C1_rrf_fusion_witness :
    (∃ e, mapLookup
        (rrfScores [⟨"A", "", 1, 1, "ts", "rep", 0, Method.keyword⟩]
          [⟨"A", "", 1, 1, "ts", "rep", 0, Method.semantic⟩])
        (keyOf (([⟨"A", "", 1, 1, "ts", "rep", 0, Method.keyword⟩]
          : List SearchResult).get ⟨0, by decide⟩)) = some e ∧
      e.score = 1 / (60 + (((0 : Nat) : ℚ) + 1)) + 1 / (60 + (((0 : Nat) : ℚ) + 1)) ∧
      1 / (60 + (((0 : Nat) : ℚ) + 1)) < e.score ∧
      1 / (60 + (((0 : Nat) : ℚ) + 1)) < e.score) ∧
    (rrfFuse [⟨"A", "", 1, 1, "ts", "rep", 0, Method.keyword⟩]
      [⟨"A", "", 1, 1, "ts", "rep", 0, Method.semantic⟩] 5).length ≤ 5 :=
  have h := C1_rrf_fusion [⟨"A", "", 1, 1, "ts", "rep", 0, Method.keyword⟩]
    [⟨"A", "", 1, 1, "ts", "rep", 0, Method.semantic⟩] 5 (by decide) (by decide)
  ⟨h.1 0 (by decide) 0 (by decide) rfl, h.2.2.2.1⟩

theorem upsertDocument_frame (db : DB) (repo p hash lang : String) (now : Nat) :
    (upsertDocument db repo p hash lang now).chunks = db.chunks ∧
    (upsertDocument db repo p hash lang now).chunks_fts = db.chunks_fts ∧
    (upsertDocument db repo p hash lang now).vectors = db.vectors ∧
    (upsertDocument db repo p hash lang now).nextChunkId = db.nextChunkId := by
  unfold upsertDocument
  cases findDoc db repo p <;> exact ⟨rfl, rfl, rfl, rfl⟩

theorem findDoc_update (repo p hash lang : String) (now : Nat) (docs : List DocRow) :
    ∀ d0, docs.find? (fun d => decide (d.repo = repo ∧ d.file_path = p)) = some d0 →
      (docs.map (fun d =>
        if d.repo = repo ∧ d.file_path = p then
          { d with file_hash := hash, language := lang, indexed_at := now }
        else d)).find? (fun d => decide (d.repo = repo ∧ d.file_path = p))
        = some { d0 with file_hash := hash, language := lang, indexed_at := now } := by
  induction docs with
  | nil =>
    intro d0 h
    simp at h
  | cons a rest ih =>
    intro d0 h
    by_cases ha : a.repo = repo ∧ a.file_path = p
    · rw [List.find?_cons_of_pos _ (by simpa using ha)] at h
      have had : a = d0 := by simpa using h
      subst had
      rw [List.map_cons, if_pos ha]
      rw [List.find?_cons_of_pos _ (by simpa using ha)]
    · rw [List.find?_cons_of_neg _ (by simpa using ha)] at h
      rw [List.map_cons, if_neg ha]
      rw [List.find?_cons_of_neg _ (by simpa using ha)]
      exact ih d0 h

theorem upsertDocument_findDoc (db : DB) (repo p hash lang : String) (now : Nat) :
    ∃ doc, findDoc (upsertDocument db repo p hash lang now) repo p = some doc ∧
      doc.file_hash = hash ∧ doc.language = lang := by
  unfold upsertDocument
  cases h : findDoc db repo p with
  | none =>
    refine ⟨⟨db.nextDocId, repo, p, hash, lang, now⟩, ?_, rfl, rfl⟩
    unfold findDoc at h ⊢
    rw [List.find?_append, h]
    simp
  | some d0 =>
    refine ⟨{ d0 with file_hash := hash, language := lang, indexed_at := now }, ?_, rfl, rfl⟩
    unfold findDoc at h ⊢
    exact findDoc_update repo p hash lang now db.documents d0 h

theorem filter_key_length_le_one (repo p : String) (docs : List DocRow)
    (hkeys : (docs.map (fun d => (d.repo, d.file_path))).Nodup) :
    (docs.filter (fun d => decide (d.repo = repo ∧ d.file_path = p))).length ≤ 1 := by
  induction docs with
  | nil => simp
  | cons a rest ih =>
    rw [List.map_cons] at hkeys
    rcases List.nodup_cons.mp hkeys with ⟨hh, ht⟩
    by_cases ha : a.repo = repo ∧ a.file_path = p
    · rw [List.filter_cons_of_pos (by simpa using ha)]
      have hnil : rest.filter (fun d => decide (d.repo = repo ∧ d.file_path = p)) = [] := by
        rw [List.filter_eq_nil_iff]
        intro d hd
        rw [decide_eq_true_eq]
        intro hdk
        apply hh
        have : (a.repo, a.file_path) = (d.repo, d.file_path) := by
          rw [ha.1, ha.2, hdk.1, hdk.2]
        rw [this]
        exact List.mem_map_of_mem _ hd
      rw [hnil]
      simp
    · rw [List.filter_cons_of_neg (by simpa using ha)]
      exact ih ht

theorem upsertDocument_filter_count (db : DB) (repo p hash lang : String) (now : Nat)
    (hkeys : (db.documents.map (fun d => (d.repo, d.file_path))).Nodup) :
    ((upsertDocument db repo p hash lang now).documents.filter
      (fun d => decide (d.repo = repo ∧ d.file_path = p))).length = 1 := by
  unfold upsertDocument
  cases h : findDoc db repo p with
  | none =>
    show ((db.documents ++ [_]).filter _).length = 1
    rw [List.filter_append]
    have hnil : db.documents.filter (fun d => decide (d.repo = repo ∧ d.file_path = p))
        = [] := by
      rw [List.filter_eq_nil_iff]
      unfold findDoc at h
      rw [List.find?_eq_none] at h
      exact h
    rw [hnil]
    simp
  | some d0 =>
    show ((db.documents.map _).filter _).length = 1
    rw [List.filter_map]
    rw [List.length_map]
    have hpred : ((fun (d : DocRow) => decide (d.repo = repo ∧ d.file_path = p))
        ∘ (fun (d : DocRow) =>
        if d.repo = repo ∧ d.file_path = p then
          { d with file_hash := hash, language := lang, indexed_at := now }
        else d)) = (fun (d : DocRow) => decide (d.repo = repo ∧ d.file_path = p)) := by
      funext d
      by_cases hd : d.repo = repo ∧ d.file_path = p
      · simp [Function.comp, if_pos hd]
      · simp [Function.comp, if_neg hd]
    rw [hpred]
    have hle := filter_key_length_le_one repo p db.documents hkeys
    have hmem : d0 ∈ db.documents.filter (fun d => decide (d.repo = repo ∧ d.file_path = p)) := by
      rw [List.mem_filter]
      unfold findDoc at h
      have hm1 := List.mem_of_find?_eq_some h
      have hm2 := List.find?_some h
      exact ⟨hm1, hm2⟩
    have hpos := List.length_pos_of_mem hmem
    omega

theorem newChunkRows_docId (docId : Nat) :
    ∀ base cs, ∀ r ∈ newChunkRows docId base cs, r.doc_id = docId ∧ base ≤ r.id := by
  intro base cs
  induction cs generalizing base with
  | nil => intro r hr; simp [newChunkRows] at hr
  | cons c rest ih =>
    intro r hr
    rcases List.mem_cons.mp hr with rfl | hr
    · exact ⟨rfl, Nat.le_refl _⟩
    · rcases ih (base + 1) r hr with ⟨h1, h2⟩
      exact ⟨h1, by omega⟩

theorem newFtsRows_rowid (strip : String → String) :
    ∀ base cs, ∀ f ∈ newFtsRows strip base cs, base ≤ f.rowid := by
  intro base cs
  induction cs generalizing base with
  | nil => intro f hf; simp [newFtsRows] at hf
  | cons c rest ih =>
    intro f hf
    rcases List.mem_cons.mp hf with rfl | hf
    · exact Nat.le_refl _
    · have := ih (base + 1) f hf
      omega

theorem newChunkRows_fields (docId : Nat) :
    ∀ base cs, (newChunkRows docId base cs).map
        (fun c => (c.start_line, c.end_line, c.content, c.chunk_type))
      = cs.map (fun c => (c.startLine, c.endLine, c.content, c.ctype)) := by
  intro base cs
  induction cs generalizing base with
  | nil => rfl
  | cons c rest ih =>
    simp only [newChunkRows, List.map_cons]
    rw [ih (base + 1)]

theorem insertChunkRows_spec (strip : String → String) (docId : Nat) :
    ∀ (chunks : List Chunk) (db : DB),
      ((chunks.map Chunk.startLine).Nodup) →
      (∀ r ∈ db.chunks, r.doc_id = docId → ∀ c ∈ chunks, r.start_line ≠ c.startLine) →
      insertChunkRows strip docId chunks db = some
        { documents := db.documents,
          chunks := db.chunks ++ newChunkRows docId db.nextChunkId chunks,
          chunks_fts := db.chunks_fts ++ newFtsRows strip db.nextChunkId chunks,
          vectors := db.vectors,
          nextDocId := db.nextDocId,
          nextChunkId := db.nextChunkId + chunks.length } := by
  intro chunks
  induction chunks with
  | nil =>
    intro db _ _
    show some db = _
    simp [newChunkRows, newFtsRows]
  | cons c rest ih =>
    intro db hnd hfresh
    rw [List.map_cons] at hnd
    rcases List.nodup_cons.mp hnd with ⟨hh, ht⟩
    have hany : ¬ (db.chunks.any
        (fun r => decide (r.doc_id = docId ∧ r.start_line = c.startLine)) = true) := by
      rw [List.any_eq_true]
      rintro ⟨r, hr, hrp⟩
      rw [decide_eq_true_eq] at hrp
      exact hfresh r hr hrp.1 c (List.mem_cons_self _ _) hrp.2
    show (if db.chunks.any
        (fun r => decide (r.doc_id = docId ∧ r.start_line = c.startLine)) then none
      else insertChunkRows strip docId rest
        { db with
          chunks := db.chunks ++ [⟨db.nextChunkId, docId, c.startLine, c.endLine,
            c.content, c.ctype⟩],
          chunks_fts := db.chunks_fts ++ [⟨db.nextChunkId, c.content, strip c.filePath⟩],
          nextChunkId := db.nextChunkId + 1 }) = _
    rw [if_neg hany]
    rw [ih _ ht ?_]
    · simp only [newChunkRows, newFtsRows]
      rw [Option.some.injEq]
      refine DB.mk.injEq .. |>.mpr ?_
      refine ⟨rfl, ?_, ?_, rfl, rfl, by simp; omega⟩
      · show (db.chunks ++ [_]) ++ newChunkRows docId (db.nextChunkId + 1) rest = _
        rw [List.append_assoc]
        rfl
      · show (db.chunks_fts ++ [_]) ++ newFtsRows strip (db.nextChunkId + 1) rest = _
        rw [List.append_assoc]
        rfl
    · intro r hr hrd c' hc'
      rcases List.mem_append.mp hr with hr | hr
      · exact hfresh r hr hrd c' (List.mem_cons_of_mem c hc')
      · simp at hr
        subst hr
        show c.startLine ≠ c'.startLine
        intro hcc
        apply hh
        rw [hcc]
        exact List.mem_map_of_mem Chunk.startLine hc'

theorem indexFile_unfold (strip : String → String) (db : DB) (repo p hash : String)
    (chunks : List Chunk) (now : Nat) (doc : DocRow)
    (hdoc1 : findDoc (upsertDocument db repo p hash (docLanguage chunks) now) repo p
      = some doc)
    (hnd : (chunks.map Chunk.startLine).Nodup) :
    indexFile strip db repo p hash chunks now = some
      { documents := (upsertDocument db repo p hash (docLanguage chunks) now).documents,
        chunks := (upsertDocument db repo p hash (docLanguage chunks) now).chunks.filter
            (fun c => decide (¬ c.doc_id = doc.id))
          ++ newChunkRows doc.id
            (upsertDocument db repo p hash (docLanguage chunks) now).nextChunkId chunks,
        chunks_fts := (upsertDocument db repo p hash (docLanguage chunks)
            now).chunks_fts.filter
            (fun f => decide (f.rowid ∉ ((upsertDocument db repo p hash (docLanguage chunks)
              now).chunks.filter (fun c => decide (c.doc_id = doc.id))).map ChunkRow.id))
          ++ newFtsRows strip
            (upsertDocument db repo p hash (docLanguage chunks) now).nextChunkId chunks,
        vectors := (upsertDocument db repo p hash (docLanguage chunks) now).vectors.filter
            (fun v => decide (v.chunk_id ∉ ((upsertDocument db repo p hash
              (docLanguage chunks) now).chunks.filter
              (fun c => decide (c.doc_id = doc.id))).map ChunkRow.id)),
        nextDocId := (upsertDocument db repo p hash (docLanguage chunks) now).nextDocId,
        nextChunkId := (upsertDocument db repo p hash (docLanguage chunks) now).nextChunkId
          + chunks.length } := by
  simp only [indexFile]
  rw [hdoc1]
  refine insertChunkRows_spec strip doc.id chunks
    { documents := (upsertDocument db repo p hash (docLanguage chunks) now).documents,
      chunks := (upsertDocument db repo p hash (docLanguage chunks) now).chunks.filter
        (fun c => decide (¬ c.doc_id = doc.id)),
      chunks_fts := (upsertDocument db repo p hash (docLanguage chunks) now).chunks_fts.filter
        (fun f => decide (f.rowid ∉ ((upsertDocument db repo p hash (docLanguage chunks)
          now).chunks.filter (fun c => decide (c.doc_id = doc.id))).map ChunkRow.id)),
      vectors := (upsertDocument db repo p hash (docLanguage chunks) now).vectors.filter
        (fun v => decide (v.chunk_id ∉ ((upsertDocument db repo p hash (docLanguage chunks)
          now).chunks.filter (fun c => decide (c.doc_id = doc.id))).map ChunkRow.id)),
      nextDocId := (upsertDocument db repo p hash (docLanguage chunks) now).nextDocId,
      nextChunkId := (upsertDocument db repo p hash (docLanguage chunks) now).nextChunkId }
    hnd ?_
  intro r hr hrd c hc
  have h2 := (List.mem_filter.mp hr).2
  rw [decide_eq_true_eq] at h2
  exact absurd hrd h2

/-- Claim C2: for every (collection, path), a successful `indexFile` stores
exactly the new chunk set for the document, removes every chunk of any
earlier indexing of that path together with its FTS posting and vector,
and leaves exactly one document row for the pair — re-indexing never
creates a duplicate document.  Well-formedness is the schema state (unique
keys, unique chunk ids below the counter); duplicate-free start lines are
what the chunk UNIQUE constraint requires for the transaction to commit. -/
theorem C2_indexFile_replaces (strip : String → String) (db : DB) (repo p hash : String)
    (chunks : List Chunk) (now : Nat) (hwf : WellFormed db)
    (hnd : (chunks.map Chunk.startLine).Nodup) :
    ∃ db' doc, indexFile strip db repo p hash chunks now = some db' ∧
      findDoc db' repo p = some doc ∧ doc.file_hash = hash ∧
      ((db'.documents.filter (fun d => decide (d.repo = repo ∧ d.file_path = p))).length
        = 1) ∧
      ((db'.chunks.filter (fun c => decide (c.doc_id = doc.id))).map
          (fun c => (c.start_line, c.end_line, c.content, c.chunk_type))
        = chunks.map (fun c => (c.startLine, c.endLine, c.content, c.ctype))) ∧
      (∀ c0 ∈ db.chunks, c0.doc_id = doc.id →
        (∀ c' ∈ db'.chunks, c'.id ≠ c0.id) ∧
        (∀ f ∈ db'.chunks_fts, f.rowid ≠ c0.id) ∧
        (∀ v ∈ db'.vectors, v.chunk_id ≠ c0.id)) := by
  rcases hwf with ⟨hkeys, hcids, hclt⟩
  obtain ⟨doc, hdoc1, hdochash, hdoclang⟩ :=
    upsertDocument_findDoc db repo p hash (docLanguage chunks) now
  obtain ⟨hfc, hff, hfv, hfn⟩ := upsertDocument_frame db repo p hash (docLanguage chunks) now
  have hIF := indexFile_unfold strip db repo p hash chunks now doc hdoc1 hnd
  rw [hfc, hff, hfv, hfn] at hIF
  refine ⟨_, doc, hIF, hdoc1, hdochash, ?_, ?_, ?_⟩
  · exact upsertDocument_filter_count db repo p hash (docLanguage chunks) now hkeys
  · show (((db.chunks.filter (fun c => decide (¬ c.doc_id = doc.id))
        ++ newChunkRows doc.id db.nextChunkId chunks).filter
        (fun c => decide (c.doc_id = doc.id))).map
        (fun c => (c.start_line, c.end_line, c.content, c.chunk_type))) = _
    rw [List.filter_append]
    have h1 : (db.chunks.filter (fun c => decide (¬ c.doc_id = doc.id))).filter
        (fun c => decide (c.doc_id = doc.id)) = [] := by
      rw [List.filter_filter, List.filter_eq_nil_iff]
      intro a _
      simp
    have h2 : (newChunkRows doc.id db.nextChunkId chunks).filter
        (fun c => decide (c.doc_id = doc.id)) = newChunkRows doc.id db.nextChunkId chunks := by
      rw [List.filter_eq_self]
      intro r hr
      rw [decide_eq_true_eq]
      exact (newChunkRows_docId doc.id db.nextChunkId chunks r hr).1
    rw [h1, h2, List.nil_append]
    exact newChunkRows_fields doc.id db.nextChunkId chunks
  · intro c0 hc0 hcd
    have hidlt : c0.id < db.nextChunkId := hclt c0 hc0
    have hid_in : c0.id ∈ ((db.chunks.filter (fun c => decide (c.doc_id = doc.id))).map
        ChunkRow.id) := by
      apply List.mem_map_of_mem
      rw [List.mem_filter]
      exact ⟨hc0, by rw [decide_eq_true_eq]; exact hcd⟩
    refine ⟨?_, ?_, ?_⟩
    · intro c' hc' heq
      rcases List.mem_append.mp hc' with hl | hr
      · rcases List.mem_filter.mp hl with ⟨hc'm, hc'd⟩
        rw [decide_eq_true_eq] at hc'd
        have hcc := List.inj_on_of_nodup_map hcids hc'm hc0 heq
        rw [hcc] at hc'd
        exact hc'd hcd
      · have := (newChunkRows_docId doc.id db.nextChunkId chunks c' hr).2
        omega
    · intro f hf heq
      rcases List.mem_append.mp hf with hl | hr
      · rcases List.mem_filter.mp hl with ⟨_, hfd⟩
        rw [decide_eq_true_eq] at hfd
        rw [heq] at hfd
        exact hfd hid_in
      · have := newFtsRows_rowid strip db.nextChunkId chunks f hr
        omega
    · intro v hv heq
      rcases List.mem_filter.mp hv with ⟨_, hvd⟩
      rw [decide_eq_true_eq] at hvd
      rw [heq] at hvd
      exact hvd hid_in

/-- Witness for C2 on the sample store: re-index the existing document
with a fresh two-chunk set. -/
theorem C2_indexFile_replaces_witness :
    ∃ db' doc, indexFile (fun s => s) sampleDB "rep" "a.ts" "h2"
        [⟨"a.ts", 1, 3, "new1", "code", "typescript"⟩,
         ⟨"a.ts", 4, 6, "new2", "code", "typescript"⟩] 9 = some db' ∧
      findDoc db' "rep" "a.ts" = some doc ∧ doc.file_hash = "h2" ∧
      ((db'.documents.filter
        (fun d => decide (d.repo = "rep" ∧ d.file_path = "a.ts"))).length = 1) ∧
      ((db'.chunks.filter (fun c => decide (c.doc_id = doc.id))).map
          (fun c => (c.start_line, c.end_line, c.content, c.chunk_type))
        = ([⟨"a.ts", 1, 3, "new1", "code", "typescript"⟩,
            ⟨"a.ts", 4, 6, "new2", "code", "typescript"⟩] : List Chunk).map
            (fun c => (c.startLine, c.endLine, c.content, c.ctype))) ∧
      (∀ c0 ∈ sampleDB.chunks, c0.doc_id = doc.id →
        (∀ c' ∈ db'.chunks, c'.id ≠ c0.id) ∧
        (∀ f ∈ db'.chunks_fts, f.rowid ≠ c0.id) ∧
        (∀ v ∈ db'.vectors, v.chunk_id ≠ c0.id)) :=
  C2_indexFile_replaces (fun s => s) sampleDB "rep" "a.ts" "h2"
    [⟨"a.ts", 1, 3, "new1", "code", "typescript"⟩,
     ⟨"a.ts", 4, 6, "new2", "code", "typescript"⟩] 9
    (by refine ⟨?_, ?_, ?_⟩ <;> decide) (by decide)

/-- Claim C10: `indexFile` with an empty chunk list is not rejected — it
upserts the document row for the pair with language `"unknown"` and the
new hash, deletes every prior chunk, FTS posting and vector of the
document, and leaves the document present with zero chunks. -/
theorem C10_indexFile_empty_chunks (strip : String → String) (db : DB)
    (repo p hash : String) (now : Nat) (hwf : WellFormed db) :
    ∃ db' doc, indexFile strip db repo p hash [] now = some db' ∧
      findDoc db' repo p = some doc ∧ doc.file_hash = hash ∧ doc.language = "unknown" ∧
      ((db'.documents.filter (fun d => decide (d.repo = repo ∧ d.file_path = p))).length
        = 1) ∧
      (db'.chunks.filter (fun c => decide (c.doc_id = doc.id))) = [] ∧
      (∀ c0 ∈ db.chunks, c0.doc_id = doc.id →
        (∀ c' ∈ db'.chunks, c'.id ≠ c0.id) ∧
        (∀ f ∈ db'.chunks_fts, f.rowid ≠ c0.id) ∧
        (∀ v ∈ db'.vectors, v.chunk_id ≠ c0.id)) := by
  rcases hwf with ⟨hkeys, hcids, hclt⟩
  obtain ⟨doc, hdoc1, hdochash, hdoclang⟩ :=
    upsertDocument_findDoc db repo p hash (docLanguage []) now
  obtain ⟨hfc, hff, hfv, hfn⟩ := upsertDocument_frame db repo p hash (docLanguage []) now
  have hIF := indexFile_unfold strip db repo p hash [] now doc hdoc1 (by simp)
  rw [hfc, hff, hfv, hfn] at hIF
  refine ⟨_, doc, hIF, hdoc1, hdochash, hdoclang, ?_, ?_, ?_⟩
  · exact upsertDocument_filter_count db repo p hash (docLanguage []) now hkeys
  · show ((db.chunks.filter (fun c => decide (¬ c.doc_id = doc.id))
        ++ newChunkRows doc.id db.nextChunkId []).filter
        (fun c => decide (c.doc_id = doc.id))) = []
    rw [List.filter_append]
    have h1 : (db.chunks.filter (fun c => decide (¬ c.doc_id = doc.id))).filter
        (fun c => decide (c.doc_id = doc.id)) = [] := by
      rw [List.filter_filter, List.filter_eq_nil_iff]
      intro a _
      simp
    rw [h1]
    rfl
  · intro c0 hc0 hcd
    have hidlt : c0.id < db.nextChunkId := hclt c0 hc0
    have hid_in : c0.id ∈ ((db.chunks.filter (fun c => decide (c.doc_id = doc.id))).map
        ChunkRow.id) := by
      apply List.mem_map_of_mem
      rw [List.mem_filter]
      exact ⟨hc0, by rw [decide_eq_true_eq]; exact hcd⟩
    refine ⟨?_, ?_, ?_⟩
    · intro c' hc' heq
      rcases List.mem_append.mp hc' with hl | hr
      · rcases List.mem_filter.mp hl with ⟨hc'm, hc'd⟩
        rw [decide_eq_true_eq] at hc'd
        have hcc := List.inj_on_of_nodup_map hcids hc'm hc0 heq
        rw [hcc] at hc'd
        exact hc'd hcd
      · simp [newChunkRows] at hr
    · intro f hf heq
      rcases List.mem_append.mp hf with hl | hr
      · rcases List.mem_filter.mp hl with ⟨_, hfd⟩
        rw [decide_eq_true_eq] at hfd
        rw [heq] at hfd
        exact hfd hid_in
      · simp [newFtsRows] at hr
    · intro v hv heq
      rcases List.mem_filter.mp hv with ⟨_, hvd⟩
      rw [decide_eq_true_eq] at hvd
      rw [heq] at hvd
      exact hvd hid_in

/-- Witness for C10: empty chunk list against the sample store. -/
theorem C10_indexFile_empty_chunks_witness :
    ∃ db' doc, indexFile (fun s => s) sampleDB "rep" "a.ts" "h3" [] 9 = some db' ∧
      findDoc db' "rep" "a.ts" = some doc ∧ doc.file_hash = "h3" ∧
      doc.language = "unknown" ∧
      ((db'.documents.filter
        (fun d => decide (d.repo = "rep" ∧ d.file_path = "a.ts"))).length = 1) ∧
      (db'.chunks.filter (fun c => decide (c.doc_id = doc.id))) = [] ∧
      (∀ c0 ∈ sampleDB.chunks, c0.doc_id = doc.id →
        (∀ c' ∈ db'.chunks, c'.id ≠ c0.id) ∧
        (∀ f ∈ db'.chunks_fts, f.rowid ≠ c0.id) ∧
        (∀ v ∈ db'.vectors, v.chunk_id ≠ c0.id)) :=
  C10_indexFile_empty_chunks (fun s => s) sampleDB "rep" "a.ts" "h3" 9
    (by refine ⟨?_, ?_, ?_⟩ <;> decide)

end CodebaseRag
